import Mathlib

/-!
Verification of the PlumbrC match-and-rewrite engine against its
natural-language specification.

The development shallowly embeds the C sources:
  * `src/aho_corasick.c` — trie insertion, BFS failure-link / DFA-completion
    build, flat and bitmap-compressed transition-table representations, and
    the search loops (`ac_search`, `ac_search_all`, `ac_search_first`,
    `ac_search_has_match`);
  * `src/patterns.c` — pattern records, `patterns_add`, `patterns_get`,
    `patterns_build` (full / hot / sentinel automata);
  * `src/redactor.c` — `verify_ac_matches`, `redactor_process`,
    `redactor_apply` (sort, overlap merge, copy-and-replace with
    truncation);
  * `src/libplumbr.c` — `libplumbr_redact` input-size guard;
  * `src/amd/sse42_filter.c` — trigger pre-filter (byte-set membership).

Machine integers: all C size_t / uint32_t arithmetic is on `Nat` (C
subtractions that are guarded by comparisons, as in the source, become
truncated `Nat` subtraction at exactly the guarded spots).  State ids are
`Nat`; the build rejects automata with more than 32767 states exactly as
the C does, so the `int16_t` materialisation in the C tables is
value-preserving.  The `int32_t` goto entries use `Option Nat` with
`none` for the C sentinel `-1`; output links keep C's `int32_t` as `Int`
because the match loop tests `ms > 0`.  PCRE2 is external to the
repository: regex compilation and regex execution are oracle parameters.
-/

set_option maxRecDepth 8192

namespace Plumbr

/-- A byte, the alphabet of the automaton (`AC_ALPHABET_SIZE = 256`). -/
abbrev Byte := Fin 256

/-- `PLUMBR_MAX_LINE_SIZE` from config.h. -/
def PLUMBR_MAX_LINE_SIZE : Nat := 64 * 1024

/-- `PLUMBR_MAX_MATCHES_PER_LINE` from config.h. -/
def PLUMBR_MAX_MATCHES_PER_LINE : Nat := 64

/-- `AC_MAX_STATES` from config.h. -/
def AC_MAX_STATES : Nat := 8 * 1024

/-- `PLUMBR_HOT_AC_SIZE` from config.h. -/
def PLUMBR_HOT_AC_SIZE : Nat := 20

/-- Pointwise update of a state-indexed field (a C array store). -/
def updF {α : Type} (f : Nat → α) (s : Nat) (v : α) : Nat → α :=
  fun u => if u = s then v else f u

/-- Update of one goto-table cell (`ac->states[s].goto_table[c] = v`). -/
def updG (g : Nat → Byte → Option Nat) (s : Nat) (c : Byte) (v : Option Nat) :
    Nat → Byte → Option Nat :=
  fun u b => if u = s ∧ b = c then v else g u b

/-- Compressed sparse row (`aho_corasick.c` row layout: 2-byte default
target, `uint64_t bitmap[4]`, packed non-default targets).  The byte
offsets into the single compressed buffer are memory layout; the row
record holds the same data per state. -/
structure CompRow where
  defTarget : Nat
  bitmap : Nat → Nat
  trans : List Nat

/-- The automaton state (`struct ACAutomaton` plus the per-state
`ACState` array, with each per-state field as a function of the state
id).  `meta` in the C is a verbatim copy of `output`, `patternId`,
`depth`, `isFinal` made at build time, so the search loops read these
functions directly. -/
structure ACAutomaton where
  capacity : Nat
  numStates : Nat
  gotoT : Nat → Byte → Option Nat
  fail : Nat → Nat
  output : Nat → Int
  patternId : Nat → Nat
  depth : Nat → Nat
  isFinal : Nat → Bool
  numPatterns : Nat
  built : Bool
  forceFlat : Bool
  dfa : Option (Nat → Byte → Nat)
  rootRow : Option (Byte → Nat)
  compressed : Option (Nat → CompRow)

/-- `ac_create`: one root state, all transitions absent, `fail = 0`,
`output = -1`, not built, compression not disabled. -/
def ac_create : ACAutomaton :=
  { capacity := AC_MAX_STATES
    numStates := 1
    gotoT := fun _ _ => none
    fail := fun _ => 0
    output := fun _ => -1
    patternId := fun _ => 0
    depth := fun _ => 0
    isFinal := fun _ => false
    numPatterns := 0
    built := false
    forceFlat := false
    dfa := none
    rootRow := none
    compressed := none }

/-- `ac_new_state`: allocate the next state id with depth `d`, failing
when the state capacity is reached. -/
def ac_new_state (ac : ACAutomaton) (d : Nat) : Option (Nat × ACAutomaton) :=
  if ac.capacity ≤ ac.numStates then none
  else
    let sid := ac.numStates
    some (sid,
      { ac with
        numStates := sid + 1
        gotoT := fun u b => if u = sid then none else ac.gotoT u b
        fail := updF ac.fail sid 0
        output := updF ac.output sid (-1)
        patternId := updF ac.patternId sid 0
        depth := updF ac.depth sid d
        isFinal := updF ac.isFinal sid false })

/-- The per-byte walk of `ac_add_pattern`: follow or create the child for
each pattern byte.  On state exhaustion the C returns `false` keeping the
states allocated so far, so the partially extended automaton is
returned with the failure flag. -/
def ac_add_loop : ACAutomaton → Nat → Nat → List Byte → Bool × ACAutomaton × Nat
  | ac, state, _, [] => (true, ac, state)
  | ac, state, d, c :: rest =>
    match ac.gotoT state c with
    | some next => ac_add_loop ac next (d + 1) rest
    | none =>
      match ac_new_state ac d with
      | none => (false, ac, state)
      | some (next, ac1) =>
        ac_add_loop { ac1 with gotoT := updG ac1.gotoT state c (some next) }
          next (d + 1) rest

/-- `ac_add_pattern`: rejects additions after build and empty patterns;
otherwise walks/creates the trie path and marks the terminal state final
with the given pattern id. -/
def ac_add_pattern (ac : ACAutomaton) (pat : List Byte) (pid : Nat) :
    Bool × ACAutomaton :=
  if ac.built then (false, ac)
  else if pat.length = 0 then (false, ac)
  else
    match ac_add_loop ac 0 1 pat with
    | (false, ac1, _) => (false, ac1)
    | (true, ac1, st) =>
      (true,
        { ac1 with
          isFinal := updF ac1.isFinal st true
          patternId := updF ac1.patternId st pid
          numPatterns := ac1.numPatterns + 1 })

/-- BFS build state: the automaton plus the queue (`data` with `head`;
pushes append at the tail, exactly the C array queue). -/
structure BuildSt where
  ac : ACAutomaton
  qdata : List Nat
  qhead : Nat

/-- Step 1 of `ac_build` for one byte: root children get `fail = 0` and
are queued; missing root transitions loop back to the root. -/
def rootStep (st : BuildSt) (c : Byte) : BuildSt :=
  match st.ac.gotoT 0 c with
  | some s =>
    { st with
      ac := { st.ac with fail := updF st.ac.fail s 0 }
      qdata := st.qdata ++ [s] }
  | none =>
    { st with ac := { st.ac with gotoT := updG st.ac.gotoT 0 c (some 0) } }

/-- Step 1 of `ac_build` over all 256 bytes in order. -/
def rootComplete (ac : ACAutomaton) : BuildSt :=
  (List.finRange 256).foldl rootStep { ac := ac, qdata := [], qhead := 0 }

/-- Step 2 of `ac_build`, one `(state, byte)`: an existing child is
queued and gets its failure and output links from the (already
completed) failure row; a missing transition is completed from the
failure row.  The C reads `states[fail(r)].goto_table[c]` unguarded; an
absent entry there would make the C store `-1` and later index with it
(undefined behaviour), which the model reports as `none`.  The build
invariants proved below show a successful build never reaches that
case. -/
def bfsChar (r : Nat) (st : BuildSt) (c : Byte) : Option BuildSt :=
  match st.ac.gotoT r c with
  | some s =>
    match st.ac.gotoT (st.ac.fail r) c with
    | none => none
    | some fs =>
      let out : Int := if st.ac.isFinal fs then (fs : Int) else st.ac.output fs
      some
        { st with
          ac := { st.ac with
                  fail := updF st.ac.fail s fs
                  output := updF st.ac.output s out }
          qdata := st.qdata ++ [s] }
  | none =>
    match st.ac.gotoT (st.ac.fail r) c with
    | none => none
    | some t =>
      some { st with ac := { st.ac with gotoT := updG st.ac.gotoT r c (some t) } }

/-- Step 2 of `ac_build` for one popped state over all 256 bytes. -/
def bfsState (st : BuildSt) (r : Nat) : Option BuildSt :=
  (List.finRange 256).foldlM (fun s c => bfsChar r s c) st

/-- The BFS `while (!queue_empty)` loop.  Each iteration pops one state,
so `numStates` iterations always suffice (proved below); running out of
fuel with a nonempty queue is reported as failure. -/
def bfsLoop : Nat → BuildSt → Option BuildSt
  | 0, st => if st.qdata.length ≤ st.qhead then some st else none
  | fuel + 1, st =>
    match st.qdata.get? st.qhead with
    | none => some st
    | some r =>
      match bfsState { st with qhead := st.qhead + 1 } r with
      | none => none
      | some st1 => bfsLoop fuel st1

/-- One flat DFA row: the completed goto entry as a state id.  The build
invariants show every entry is present after a successful build; the C
stores the id as `int16_t`, value-preserving because the build rejects
more than 32767 states. -/
def flatRow (g : Nat → Byte → Option Nat) (s : Nat) : Byte → Nat :=
  fun c => (g s c).getD 0

/-- Number of columns of a row equal to a target (the counting loops in
the default-target selection of `ac_build`). -/
def countTarget (row : Byte → Nat) (t : Nat) : Nat :=
  ((List.finRange 256).filter (fun c => row c = t)).length

/-- The rare-case scan of `ac_build`'s default-target selection: try each
column's target, keep the best count seen, stop early once a majority
(> 128) is found. -/
def pickDefaultLoop (row : Byte → Nat) : List Byte → Nat × Nat → Nat × Nat
  | [], st => st
  | c :: rest, (cand, cnt) =>
    if row c = cand then pickDefaultLoop row rest (cand, cnt)
    else
      let tc := countTarget row (row c)
      if cnt < tc then
        (if 128 < tc then (row c, tc) else pickDefaultLoop row rest (row c, tc))
      else pickDefaultLoop row rest (cand, cnt)

/-- Default-target selection of `ac_build`: sample column 0, count it,
and only when that count is not a strict majority scan for a better
candidate. -/
def pickDefault (row : Byte → Nat) : Nat :=
  let cand := row (0 : Byte)
  let cnt := countTarget row cand
  if cnt ≤ 128 then (pickDefaultLoop row (List.finRange 256) (cand, cnt)).1
  else cand

/-- The second-pass fill of one compressed row: walk the 256 columns in
order; each non-default column sets its bit in the 4-word bitmap and
appends its target to the packed transition list. -/
def compRowFold (row : Byte → Nat) (dt : Nat) :
    List Byte → (Nat → Nat) → List Nat → (Nat → Nat) × List Nat
  | [], bm, tr => (bm, tr)
  | c :: rest, bm, tr =>
    if row c = dt then compRowFold row dt rest bm tr
    else
      compRowFold row dt rest
        (updF bm (c.val / 64) (bm (c.val / 64) ||| (1 <<< (c.val % 64))))
        (tr ++ [row c])

/-- Build one compressed row from a completed 256-column row. -/
def buildCompRow (row : Byte → Nat) : CompRow :=
  let dt := pickDefault row
  let bmtr := compRowFold row dt (List.finRange 256) (fun _ => 0) []
  { defTarget := dt, bitmap := bmtr.1, trans := bmtr.2 }

/-- `__builtin_popcountll` on a 64-bit word value. -/
def popcount64 (x : Nat) : Nat :=
  ((List.range 64).filter (fun i => x.testBit i)).length

/-- `compressed_lookup`: test the byte's bit in the divergence bitmap;
clear means the default target, set means the packed transition whose
index is the number of set bits below the byte (prefix popcount). -/
def compressed_lookup (rows : Nat → CompRow) (state : Nat) (c : Byte) : Nat :=
  let row := rows state
  let w := c.val / 64
  let b := c.val % 64
  if row.bitmap w &&& (1 <<< b) = 0 then row.defTarget
  else
    let pos :=
      ((List.range w).map (fun i => popcount64 (row.bitmap i))).sum +
        popcount64 (row.bitmap w &&& (1 <<< b - 1))
    row.trans.getD pos 0

/-- `ac_set_force_flat`. -/
def ac_set_force_flat (ac : ACAutomaton) : ACAutomaton :=
  { ac with forceFlat := true }

/-- `ac_build`: no-op when already built; otherwise complete the root,
run the BFS completion pass, reject more than 32767 states (`int16_t`
guard), and materialise either the flat table (`force_flat`) or the
compressed representation (flat root row plus per-state compressed
rows). -/
def ac_build (ac : ACAutomaton) : Option ACAutomaton :=
  if ac.built then some ac
  else
    match bfsLoop ac.numStates (rootComplete ac) with
    | none => none
    | some st =>
      let ac1 := st.ac
      if 32767 < ac1.numStates then none
      else if ac1.forceFlat then
        some
          { ac1 with
            built := true
            dfa := some (flatRow ac1.gotoT)
            rootRow := none
            compressed := none }
      else
        some
          { ac1 with
            built := true
            dfa := none
            rootRow := some (flatRow ac1.gotoT 0)
            compressed := some (fun s => buildCompRow (flatRow ac1.gotoT s)) }

/-- `ACMatch` (aho_corasick.h): a match ends at `position`, covers
`length` bytes, and names the pattern. -/
structure ACMatch where
  position : Nat
  patternId : Nat
  length : Nat
deriving DecidableEq, Repr

/-- The output-link walk of the search loops with a match callback
(`while (ms > 0) { if final emit; ms = output ms }`).  The walk is
fuelled; the build invariants give strictly decreasing depth along
output links, so fuel `numStates` never runs out on a built automaton.
Returns the callback's continue flag with its state. -/
def matchChain {σ : Type} (ac : ACAutomaton) (cb : ACMatch → σ → Bool × σ)
    (i : Nat) : Nat → Int → σ → Bool × σ
  | 0, _, s => (true, s)
  | fuel + 1, ms, s =>
    if 0 < ms then
      let m := ms.toNat
      if ac.isFinal m then
        match cb ⟨i, ac.patternId m, ac.depth m⟩ s with
        | (true, s1) => matchChain ac cb i fuel (ac.output m) s1
        | (false, s1) => (false, s1)
      else matchChain ac cb i fuel (ac.output m) s
    else (true, s)

/-- The per-byte search loop shared by the flat and compressed paths of
`ac_search`: advance the state through `next`, then walk the output
chain at the new state. -/
def searchLoop {σ : Type} (ac : ACAutomaton) (next : Nat → Byte → Nat)
    (cb : ACMatch → σ → Bool × σ) : List Byte → Nat → Nat → σ → σ
  | [], _, _, s => s
  | c :: rest, i, state, s =>
    let st1 := next state c
    match matchChain ac cb i ac.numStates (Int.ofNat st1) s with
    | (true, s1) => searchLoop ac next cb rest (i + 1) st1 s1
    | (false, s1) => s1

/-- The transition function a built automaton actually uses:
the flat table when present (`force_flat` automata), else the flat root
row for state 0 and `compressed_lookup` for the rest — the dispatch at
the top of `ac_search` / `ac_search_first` / `ac_search_has_match`. -/
def acNext (ac : ACAutomaton) : Option (Nat → Byte → Nat) :=
  match ac.dfa with
  | some dfa => some dfa
  | none =>
    match ac.rootRow, ac.compressed with
    | some root, some comp =>
      some (fun st c => if st = 0 then root c else compressed_lookup comp st c)
    | _, _ => none

/-- `ac_search` with a callback: unbuilt automata and empty text return
immediately. -/
def ac_search {σ : Type} (ac : ACAutomaton) (text : List Byte)
    (cb : ACMatch → σ → Bool × σ) (s0 : σ) : σ :=
  if ¬ ac.built ∨ text.length = 0 then s0
  else
    match acNext ac with
    | some next => searchLoop ac next cb text 0 0 s0
    | none => s0

/-- `ac_search_all`: collect matches in emission order through the
callback, stopping (callback returns false) once `max_matches` are
collected. -/
def ac_search_all (ac : ACAutomaton) (text : List Byte) (maxMatches : Nat) :
    List ACMatch :=
  ac_search ac text
    (fun m s => if maxMatches ≤ s.length then (false, s) else (true, s ++ [m])) []

/-- The output-chain walk of `ac_search_first`: first final state on the
chain yields the match. -/
def firstChain (ac : ACAutomaton) (i : Nat) : Nat → Int → Option ACMatch
  | 0, _ => none
  | fuel + 1, ms =>
    if 0 < ms then
      let m := ms.toNat
      if ac.isFinal m then some ⟨i, ac.patternId m, ac.depth m⟩
      else firstChain ac i fuel (ac.output m)
    else none

/-- The byte loop of `ac_search_first`. -/
def firstLoop (ac : ACAutomaton) (next : Nat → Byte → Nat) :
    List Byte → Nat → Nat → Option ACMatch
  | [], _, _ => none
  | c :: rest, i, state =>
    let st1 := next state c
    match firstChain ac i ac.numStates (Int.ofNat st1) with
    | some m => some m
    | none => firstLoop ac next rest (i + 1) st1

/-- `ac_search_first`. -/
def ac_search_first (ac : ACAutomaton) (text : List Byte) : Option ACMatch :=
  if ¬ ac.built ∨ text.length = 0 then none
  else
    match acNext ac with
    | some next => firstLoop ac next text 0 0
    | none => none

/-- The output-chain walk of `ac_search_has_match`. -/
def hasChain (ac : ACAutomaton) : Nat → Int → Bool
  | 0, _ => false
  | fuel + 1, ms =>
    if 0 < ms then
      let m := ms.toNat
      if ac.isFinal m then true else hasChain ac fuel (ac.output m)
    else false

/-- The byte loop of `ac_search_has_match`. -/
def hasLoop (ac : ACAutomaton) (next : Nat → Byte → Nat) :
    List Byte → Nat → Bool
  | [], _ => false
  | c :: rest, state =>
    let st1 := next state c
    if hasChain ac ac.numStates (Int.ofNat st1) then true
    else hasLoop ac next rest st1

/-- `ac_search_has_match`. -/
def ac_search_has_match (ac : ACAutomaton) (text : List Byte) : Bool :=
  if ¬ ac.built ∨ text.length = 0 then false
  else
    match acNext ac with
    | some next => hasLoop ac next text 0
    | none => false

/-! ## Pattern records and pattern sets (`patterns.c`) -/

/-- ASCII byte of a character (all literals in the sources are ASCII). -/
def charByte (ch : Char) : Byte := ⟨ch.toNat % 256, Nat.mod_lt _ (by decide)⟩

/-- Bytes of a literal string. -/
def strBytes (s : String) : List Byte := s.toList.map charByte

/-- One pattern record (`Pattern` in patterns.h).  The compiled PCRE2
handle is abstract (`Option Nat`, `none` for a NULL `pcre2_code *`);
`literal_len` and `replacement_len` in the C always equal the stored
byte counts, so the lists carry them. -/
structure Pattern where
  name : String
  literal : List Byte
  hasLiteral : Bool
  regex : Option Nat
  replacement : List Byte
  id : Nat
deriving DecidableEq

/-- The zeroed pattern slot produced by `memset(p, 0, sizeof(Pattern))`. -/
def emptyPattern : Pattern :=
  { name := "", literal := [], hasLiteral := false, regex := none
    replacement := [], id := 0 }

/-- `PatternSet` (patterns.c): a capacity-sized slot array (as a
function), the visible count, and the three automata. -/
structure PatternSet where
  patterns : Nat → Pattern
  count : Nat
  capacity : Nat
  automaton : ACAutomaton
  sentinel : Option ACAutomaton
  hot_ac : Option ACAutomaton
  hot_count : Nat
  built : Bool

/-- `patterns_create`. -/
def patterns_create (cap : Nat) : PatternSet :=
  { patterns := fun _ => emptyPattern
    count := 0
    capacity := cap
    automaton := ac_create
    sentinel := none
    hot_ac := none
    hot_count := 0
    built := false }

/-- The default replacement `snprintf(..., "[REDACTED:%s]", name)`,
truncated to the 128-byte buffer (127 content bytes). -/
def defaultReplacement (name : String) : List Byte :=
  (strBytes ("[REDACTED:" ++ name ++ "]")).take 127

/-- The slot contents `patterns_add` has written when regex compilation
fails: the zeroed slot with the (truncated) name and literal copied in. -/
def addSlotBase (name : String) (literal : Option (List Byte)) : Pattern :=
  let p1 := { emptyPattern with name := name.take 63 }
  match literal with
  | some l =>
    if l ≠ [] then { p1 with literal := l.take 255, hasLiteral := true }
    else { p1 with hasLiteral := false }
  | none => { p1 with hasLiteral := false }

/-- The complete slot `patterns_add` writes on success: the base slot
plus the compiled regex, the (possibly defaulted) replacement, and the
dense id. -/
def addSlotFull (name : String) (literal : Option (List Byte)) (code : Nat)
    (replacement : Option (List Byte)) (id : Nat) : Pattern :=
  let p3 := { addSlotBase name literal with regex := some code }
  let p4 :=
    match replacement with
    | some rep =>
      if rep ≠ [] then { p3 with replacement := rep.take 127 }
      else { p3 with replacement := defaultReplacement p3.name }
    | none => { p3 with replacement := defaultReplacement p3.name }
  { p4 with id := id }

/-- `patterns_add`.  Regex compilation is the oracle `compile` (PCRE2 is
external); the C writes the slot at index `count` field by field and
returns `false` without bumping `count` when compilation fails, which
leaves the name/literal written into the (invisible) scratch slot. -/
def patterns_add (compile : List Byte → Option Nat) (ps : PatternSet)
    (name : String) (literal : Option (List Byte)) (regex : List Byte)
    (replacement : Option (List Byte)) : Bool × PatternSet :=
  if ps.built then (false, ps)
  else if ps.capacity ≤ ps.count then (false, ps)
  else
    match compile regex with
    | none =>
      (false, { ps with patterns := updF ps.patterns ps.count (addSlotBase name literal) })
    | some code =>
      (true,
        { ps with
          patterns := updF ps.patterns ps.count
            (addSlotFull name literal code replacement ps.count)
          count := ps.count + 1 })

/-- `patterns_get`: ids at or beyond `count` are NULL. -/
def patterns_get (ps : PatternSet) (id : Nat) : Option Pattern :=
  if ps.count ≤ id then none else some (ps.patterns id)

/-- `patterns_count`. -/
def patterns_count (ps : PatternSet) : Nat := ps.count

/-- Step 1 of `patterns_build`: feed every pattern literal into the full
automaton (the C ignores the `ac_add_pattern` result). -/
def addLiterals (ps : PatternSet) : ACAutomaton :=
  (List.range ps.count).foldl
    (fun a i =>
      let p := ps.patterns i
      if p.hasLiteral ∧ 0 < p.literal.length then (ac_add_pattern a p.literal p.id).2
      else a)
    ps.automaton

/-- The static `hot_names` table of `patterns_build`. -/
def hotNames : List String :=
  ["password_value", "secret_value", "api_key_value", "token_value",
   "credential_value", "aws_access_key", "github_personal_access_token",
   "email_address", "generic_api_key", "generic_api_secret",
   "generic_auth_token", "bearer_token", "generic_password",
   "generic_secret_key", "visa", "mastercard", "amex", "ssn",
   "private_key_path", "generic_db_password"]

/-- The inner scan of the hot-automaton build: the first pattern whose
name equals the hot name and that has a usable literal. -/
def findHot (ps : PatternSet) (h : String) : Option Pattern :=
  (List.range ps.count).findSome?
    (fun i =>
      let p := ps.patterns i
      if p.name = h ∧ p.hasLiteral ∧ 0 < p.literal.length then some p else none)

/-- The hot-automaton selection loop: walk the hot-name list while fewer
than `PLUMBR_HOT_AC_SIZE` literals have been taken. -/
def hotFold (ps : PatternSet) : List String → ACAutomaton × Nat → ACAutomaton × Nat
  | [], st => st
  | h :: rest, (a, cnt) =>
    if PLUMBR_HOT_AC_SIZE ≤ cnt then (a, cnt)
    else
      match findHot ps h with
      | some p => hotFold ps rest ((ac_add_pattern a p.literal p.id).2, cnt + 1)
      | none => hotFold ps rest (a, cnt)

/-- The fixed sentinel token list of `patterns_build` (the
`sentinels[]` table).  Each entry is the literal's byte sequence with
the length given in the source; the `{"Steuernummer", 13}` entry passes
a length one beyond the string, so its pattern includes the terminating
NUL byte. -/
def sentinelTokens : List (List Byte) :=
  [strBytes "password", strBytes "secret", strBytes "token", strBytes "AKIA",
   strBytes "ghp_", strBytes "sk_live_", strBytes "postgres://",
   strBytes "mongodb://", strBytes "-----BEGIN", strBytes "xoxb-",
   strBytes "eyJ", strBytes "Bearer", strBytes "api_key",
   strBytes "credential", strBytes "key",
   strBytes "MRN", strBytes "NPI", strBytes "diagnosis", strBytes "patient",
   strBytes "beneficiary", strBytes "ICD", strBytes "glucose",
   strBytes "A1C", strBytes "blood", strBytes "heart_rate",
   strBytes "encounter", strBytes "prescription", strBytes "Rx",
   strBytes "cardholder", strBytes "%B", strBytes "PIN", strBytes "track",
   strBytes "card_number", strBytes "cvv", strBytes "merchant",
   strBytes "IBAN", strBytes "NINO", strBytes "DNI", strBytes "NIE",
   strBytes "INSEE", strBytes "Steuernummer" ++ [(0 : Byte)],
   strBytes "codice_fiscale", strBytes "driving_licen",
   strBytes "audit_id", strBytes "session_id", strBytes "role",
   strBytes "permission", strBytes "acl", strBytes "privilege",
   strBytes "encryption_key", strBytes "signing_key", strBytes "master_key",
   strBytes "mfa", strBytes "totp", strBytes "recovery_code", strBytes "kms"]

/-- The sentinel trie: every sentinel token added with its list index as
pattern id (results ignored, as in the C). -/
def addSentinels (a : ACAutomaton) : ACAutomaton :=
  (sentinelTokens.enum).foldl
    (fun a ip => (ac_add_pattern a ip.2 ip.1).2) a

/-- `patterns_build`: idempotent when built; add the literals and build
the full automaton (failure is terminal); build the hot automaton with
forced flat representation (non-fatal, NULL on failure); build the
sentinel automaton (non-fatal, NULL on failure; note: no
`ac_set_force_flat` is applied to it); mark the set built. -/
def patterns_build (ps : PatternSet) : Option PatternSet :=
  if ps.built then some ps
  else
    match ac_build (addLiterals ps) with
    | none => none
    | some autoB =>
      let hot := hotFold ps hotNames (ac_set_force_flat ac_create, 0)
      let hotB : Option ACAutomaton := if hot.2 = 0 then none else ac_build hot.1
      let sentB : Option ACAutomaton := ac_build (addSentinels ac_create)
      some
        { ps with
          automaton := autoB
          hot_ac := hotB
          hot_count := hot.2
          sentinel := sentB
          built := true }

/-! ## Redactor (`redactor.c`, `sse42_filter.c`, `libplumbr.c`) -/

/-- `MatchLocation` (redactor.c); the C field `end` is `stop` here
(`end` is a Lean keyword). -/
structure MatchLocation where
  start : Nat
  stop : Nat
  patternId : Nat
deriving DecidableEq, Repr

/-- The `qsort` by ascending start (the comparator looks only at
`start`; `qsort` is unstable, insertion sort realises one admissible
order). -/
def sortMatches (l : List MatchLocation) : List MatchLocation :=
  List.insertionSort (fun a b => a.start ≤ b.start) l

/-- The overlap-merge loop of `redactor_apply` on the sorted match
array: a current match starting before the previous end is folded into
the previous match (extending its end when needed, keeping its
pattern id); otherwise the previous match is emitted. -/
def mergeLoop (prev : MatchLocation) : List MatchLocation → List MatchLocation
  | [] => [prev]
  | curr :: rest =>
    if curr.start < prev.stop then
      if prev.stop < curr.stop then mergeLoop { prev with stop := curr.stop } rest
      else mergeLoop prev rest
    else prev :: mergeLoop curr rest

/-- Overlap merge of a sorted match list (`merged_count` loop). -/
def mergeMatches : List MatchLocation → List MatchLocation
  | [] => []
  | m :: rest => mergeLoop m rest

/-- The replacement the rewrite loop splices for a pattern id: present
when the pattern exists and its replacement is nonempty
(`if (pat && pat->replacement_len > 0)`). -/
def getRepl (ps : PatternSet) (pid : Nat) : Option (List Byte) :=
  match patterns_get ps pid with
  | some p => if 0 < p.replacement.length then some p.replacement else none
  | none => none

/-- The copy-and-replace loop of `redactor_apply` over the merged match
list.  State: input cursor `in_pos` and the output built so far.  Either
append would overflow the capacity (`>=` keeps room for the NUL) stops
the loop with the truncation flag; `in_pos` advances to the match end
only when the match was fully processed. -/
def buildOutputLoop (cap : Nat) (ps : PatternSet) (line : List Byte) :
    List MatchLocation → Nat → List Byte → List Byte × Nat × Bool
  | [], in_pos, out => (out, in_pos, false)
  | m :: rest, in_pos, out =>
    let before_len := m.start - in_pos
    if 0 < before_len ∧ cap ≤ out.length + before_len then (out, in_pos, true)
    else
      let out1 :=
        if 0 < before_len then out ++ (line.drop in_pos).take before_len else out
      match getRepl ps m.patternId with
      | some repl =>
        if cap ≤ out1.length + repl.length then (out1, in_pos, true)
        else buildOutputLoop cap ps line rest m.stop (out1 ++ repl)
      | none => buildOutputLoop cap ps line rest m.stop out1

/-- The full output construction of `redactor_apply`: the match loop
followed by the final copy of the remaining input, which is appended
whenever it is nonempty and fits strictly below the capacity. -/
def applyOutput (cap : Nat) (ps : PatternSet) (line : List Byte)
    (merged : List MatchLocation) : List Byte :=
  let res := buildOutputLoop cap ps line merged 0 []
  let out := res.1
  let in_pos := res.2.1
  let remaining := line.length - in_pos
  if 0 < remaining ∧ out.length + remaining < cap then out ++ line.drop in_pos
  else out

/-- A regex-execution oracle standing for
`pcre2_jit_match`/`pcre2_match`: pattern handle, subject, start offset ↦
the capture-0 bounds on success (`rc > 0`). -/
def RegexExec : Type := Nat → List Byte → Nat → Option (Nat × Nat)

/-- `Redactor` (redactor.h): the referenced pattern set, the output
capacity, which per-pattern match-data slots are populated, the cached
trigger bytes, and the stats counters. -/
structure Redactor where
  patterns : PatternSet
  output_capacity : Nat
  matchData : Nat → Bool
  num_patterns : Nat
  triggers : List Byte
  trigger_count : Nat
  use_sse42 : Bool
  lines_scanned : Nat
  lines_modified : Nat
  patterns_matched : Nat
  lines_prefiltered : Nat
  lines_sentinel_filtered : Nat

/-- `sse42_has_triggers`: true when the line contains any of the (at
most 16) trigger bytes.  The SSE4.2 equal-any chunked scan and the
scalar fallback both compute exactly this set membership. -/
def sse42_has_triggers (triggers : List Byte) (cnt : Nat) (line : List Byte) :
    Bool :=
  if cnt = 0 ∨ line.length = 0 then false
  else line.any (fun b => (triggers.take (min cnt 16)).any (fun t => t = b))

/-- `verify_ac_matches`: for each automaton candidate (while fewer than
`max_verified` are recorded), skip patterns without a compiled regex or
without match data, anchor the regex search `length + 10` bytes before
the candidate end (clamped at 0 with the C's guarded `size_t`
subtractions), and record the capture bounds when the regex matched
with an end inside the line. -/
def verify_ac_matches (exec : RegexExec) (r : Redactor) (line : List Byte) :
    List ACMatch → List MatchLocation → List MatchLocation
  | [], acc => acc
  | ac :: rest, acc =>
    if (PLUMBR_MAX_MATCHES_PER_LINE : Nat) ≤ acc.length then acc
    else
      match patterns_get r.patterns ac.patternId with
      | none => verify_ac_matches exec r line rest acc
      | some pat =>
        match pat.regex with
        | none => verify_ac_matches exec r line rest acc
        | some code =>
          if r.num_patterns ≤ ac.patternId ∨ ¬ r.matchData ac.patternId then
            verify_ac_matches exec r line rest acc
          else
            let s1 := if ac.length ≤ ac.position then ac.position - ac.length else 0
            let search_start := if 10 ≤ s1 then s1 - 10 else 0
            match exec code line search_start with
            | some cap =>
              if cap.2 ≤ line.length then
                verify_ac_matches exec r line rest
                  (acc ++ [⟨cap.1, cap.2, ac.patternId⟩])
              else verify_ac_matches exec r line rest acc
            | none => verify_ac_matches exec r line rest acc

/-- Result of `redactor_process`: the input pointer itself, or the
redactor's output buffer with the given contents. -/
inductive ProcResult where
  | input : ProcResult
  | buffer : List Byte → ProcResult
deriving DecidableEq, Repr

/-- The `(out_ptr, out_len)` pair's length component. -/
def procLen (line : List Byte) : ProcResult → Nat
  | ProcResult.input => line.length
  | ProcResult.buffer b => b.length

/-- `redactor_apply`: sort, merge, build the output, count the line as
modified. -/
def redactor_apply (r : Redactor) (line : List Byte)
    (verified : List MatchLocation) : Redactor × ProcResult :=
  let merged := mergeMatches (sortMatches verified)
  let out := applyOutput r.output_capacity r.patterns line merged
  ({ r with lines_modified := r.lines_modified + 1 }, ProcResult.buffer out)

/-- Phases 2–3 of `redactor_process` shared by the normal path and the
`goto cold_ac_scan` path: the cold scan over the full automaton with
verification and rewrite. -/
def coldScan (exec : RegexExec) (r : Redactor) (line : List Byte) :
    Redactor × ProcResult :=
  let acMatches := ac_search_all r.patterns.automaton line PLUMBR_MAX_MATCHES_PER_LINE
  if acMatches.length = 0 then (r, ProcResult.input)
  else
    let verified := verify_ac_matches exec r line acMatches []
    let r1 := { r with patterns_matched := r.patterns_matched + verified.length }
    if 0 < verified.length then redactor_apply r1 line verified
    else (r1, ProcResult.input)

/-- The hot phase of `redactor_process`: scan the hot automaton, verify
its candidates, and rewrite if any verified; otherwise fall through to
the cold scan. -/
def hotThenCold (exec : RegexExec) (r : Redactor) (line : List Byte) :
    Redactor × ProcResult :=
  match r.patterns.hot_ac with
  | some hot =>
    let hotMatches := ac_search_all hot line PLUMBR_MAX_MATCHES_PER_LINE
    if 0 < hotMatches.length then
      let verified := verify_ac_matches exec r line hotMatches []
      let r1 := { r with patterns_matched := r.patterns_matched + verified.length }
      if 0 < verified.length then redactor_apply r1 line verified
      else coldScan exec r1 line
    else coldScan exec r line
  | none => coldScan exec r line

/-- `redactor_process` (with `PLUMBR_TWO_TIER_AC` enabled, as in
config.h): count the line, return empty input immediately, then run
SSE pre-filter → sentinel → hot → cold.  A pre-filter miss still goes
to the cold scan when the sentinel finds a match (the partial-filter
safety path); otherwise the line is returned unchanged. -/
def redactor_process (exec : RegexExec) (r : Redactor) (line : List Byte) :
    Redactor × ProcResult :=
  let r := { r with lines_scanned := r.lines_scanned + 1 }
  if line.length = 0 then (r, ProcResult.input)
  else
    if r.use_sse42 ∧ 0 < r.trigger_count ∧
        sse42_has_triggers r.triggers r.trigger_count line = false then
      match r.patterns.sentinel with
      | some sent =>
        if ac_search_has_match sent line then coldScan exec r line
        else
          ({ r with lines_prefiltered := r.lines_prefiltered + 1 }, ProcResult.input)
      | none =>
        ({ r with lines_prefiltered := r.lines_prefiltered + 1 }, ProcResult.input)
    else
      match r.patterns.sentinel with
      | some sent =>
        if ac_search_has_match sent line = false then
          ({ r with lines_sentinel_filtered := r.lines_sentinel_filtered + 1 },
            ProcResult.input)
        else hotThenCold exec r line
      | none => hotThenCold exec r line

/-- The library-level stats of `struct libplumbr`. -/
structure LibPlumbr where
  redactor : Redactor
  lines_processed : Nat
  bytes_processed : Nat
  lines_modified : Nat

/-- `libplumbr_redact`: inputs longer than `PLUMBR_MAX_LINE_SIZE` are
rejected with NULL before the redactor runs; otherwise the result is
copied out and the library stats updated. -/
def libplumbr_redact (exec : RegexExec) (p : LibPlumbr) (input : List Byte) :
    LibPlumbr × Option (List Byte) :=
  if PLUMBR_MAX_LINE_SIZE < input.length then (p, none)
  else
    let rr := redactor_process exec p.redactor input
    let out := match rr.2 with
      | ProcResult.input => input
      | ProcResult.buffer b => b
    let modified :=
      if out.length ≠ input.length ∨ out.take input.length ≠ input then 1 else 0
    ({ p with
        redactor := rr.1
        lines_processed := p.lines_processed + 1
        bytes_processed := p.bytes_processed + input.length
        lines_modified := p.lines_modified + modified },
      some out)

/-! ## C6: sort + overlap merge produces disjoint sorted intervals -/

instance : IsTotal MatchLocation (fun a b => a.start ≤ b.start) :=
  ⟨fun a b => Nat.le_total a.start b.start⟩

instance : IsTrans MatchLocation (fun a b => a.start ≤ b.start) :=
  ⟨fun _ _ _ => Nat.le_trans⟩

/-- The start-ordering used by the sort/merge of `redactor_apply`. -/
abbrev startLE (a b : MatchLocation) : Prop := a.start ≤ b.start

/-- Every merged match keeps the start and pattern id of some input
match, only ever growing its end; ends stay at or above starts. -/
theorem mergeLoop_origin (rest : List MatchLocation) :
    ∀ prev : MatchLocation, prev.start ≤ prev.stop →
      (∀ m ∈ rest, m.start ≤ m.stop) →
      List.Sorted startLE (prev :: rest) →
      ∀ b ∈ mergeLoop prev rest,
        b.start ≤ b.stop ∧
          ∃ m ∈ prev :: rest,
            b.start = m.start ∧ b.patternId = m.patternId ∧ m.stop ≤ b.stop := by
  induction rest with
  | nil =>
    intro prev hvp _ _ b hb
    simp only [mergeLoop, List.mem_singleton] at hb
    subst hb
    exact ⟨hvp, b, by simp, rfl, rfl, le_rfl⟩
  | cons curr rest ih =>
    intro prev hvp hv hsort b hb
    have hps : prev.start ≤ curr.start :=
      (List.sorted_cons.mp hsort).1 curr (by simp)
    have hsort2 : List.Sorted startLE (curr :: rest) :=
      (List.sorted_cons.mp hsort).2
    simp only [mergeLoop] at hb
    by_cases h1 : curr.start < prev.stop
    · simp only [if_pos h1] at hb
      by_cases h2 : prev.stop < curr.stop
      · simp only [if_pos h2] at hb
        have hvc : curr.start ≤ curr.stop := hv curr (by simp)
        have hres := ih { prev with stop := curr.stop } (by simp; omega)
          (fun m hm => hv m (by simp [hm]))
          (by
            refine List.sorted_cons.mpr ⟨?_, hsort2.of_cons⟩
            intro m hm
            exact (List.sorted_cons.mp hsort).1 m (by simp [hm]))
          b hb
        rcases hres with ⟨hbv, m, hm, hs, hp, hst⟩
        refine ⟨hbv, ?_⟩
        rcases List.mem_cons.mp hm with hm | hm
        · refine ⟨prev, by simp, ?_, ?_, ?_⟩
          · rw [hs, hm]
          · rw [hp, hm]
          · subst hm; simp at hst; omega
        · exact ⟨m, by simp [hm], hs, hp, hst⟩
      · simp only [if_neg h2] at hb
        have hres := ih prev hvp (fun m hm => hv m (by simp [hm]))
          (by
            refine List.sorted_cons.mpr ⟨?_, hsort2.of_cons⟩
            intro m hm
            exact (List.sorted_cons.mp hsort).1 m (by simp [hm]))
          b hb
        rcases hres with ⟨hbv, m, hm, hs, hp, hst⟩
        refine ⟨hbv, ?_⟩
        rcases List.mem_cons.mp hm with hm | hm
        · exact ⟨prev, by simp, by rw [hs, hm], by rw [hp, hm], by subst hm; exact hst⟩
        · exact ⟨m, by simp [hm], hs, hp, hst⟩
    · simp only [if_neg h1] at hb
      rcases List.mem_cons.mp hb with hb | hb
      · subst hb
        exact ⟨hvp, b, by simp, rfl, rfl, le_rfl⟩
      · have hres := ih curr (hv curr (by simp))
          (fun m hm => hv m (by simp [hm])) hsort2 b hb
        rcases hres with ⟨hbv, m, hm, hs, hp, hst⟩
        exact ⟨hbv, m, by simp [List.mem_cons.mp hm], hs, hp, hst⟩

/-- Merged matches are pairwise separated: each emitted interval ends at
or before the next one starts. -/
theorem mergeLoop_pairwise (rest : List MatchLocation) :
    ∀ prev : MatchLocation, prev.start ≤ prev.stop →
      (∀ m ∈ rest, m.start ≤ m.stop) →
      List.Sorted startLE (prev :: rest) →
      List.Pairwise (fun a b => a.stop ≤ b.start) (mergeLoop prev rest) := by
  induction rest with
  | nil =>
    intro prev _ _ _
    simp [mergeLoop]
  | cons curr rest ih =>
    intro prev hvp hv hsort
    have hsort2 : List.Sorted startLE (curr :: rest) :=
      (List.sorted_cons.mp hsort).2
    simp only [mergeLoop]
    by_cases h1 : curr.start < prev.stop
    · simp only [if_pos h1]
      by_cases h2 : prev.stop < curr.stop
      · simp only [if_pos h2]
        have hvc : curr.start ≤ curr.stop := hv curr (by simp)
        have hps : prev.start ≤ curr.start :=
          (List.sorted_cons.mp hsort).1 curr (by simp)
        exact ih { prev with stop := curr.stop } (by simp; omega)
          (fun m hm => hv m (by simp [hm]))
          (by
            refine List.sorted_cons.mpr ⟨?_, hsort2.of_cons⟩
            intro m hm
            exact (List.sorted_cons.mp hsort).1 m (by simp [hm]))
      · simp only [if_neg h2]
        exact ih prev hvp (fun m hm => hv m (by simp [hm]))
          (by
            refine List.sorted_cons.mpr ⟨?_, hsort2.of_cons⟩
            intro m hm
            exact (List.sorted_cons.mp hsort).1 m (by simp [hm]))
    · simp only [if_neg h1]
      refine List.pairwise_cons.mpr ⟨?_, ?_⟩
      · intro b hb
        have horigin := mergeLoop_origin rest curr (hv curr (by simp))
          (fun m hm => hv m (by simp [hm])) hsort2 b hb
        rcases horigin with ⟨_, m, hm, hs, _, _⟩
        have hcm : curr.start ≤ m.start := by
          rcases List.mem_cons.mp hm with h | h
          · rw [h]
          · exact (List.sorted_cons.mp hsort2).1 m h
        omega
      · exact ih curr (hv curr (by simp)) (fun m hm => hv m (by simp [hm])) hsort2

/-- C6: for every list of verified matches handed to the rewrite step
(matches have `start ≤ end`), after sorting by ascending start and
merging, the final rewrite list consists of pairwise disjoint
`[start, end)` intervals sorted by start ascending; each merged interval
keeps the start and pattern id (hence the replacement) of the earliest
overlapping match and only ever extends its end. -/
theorem C6_merge_disjoint_sorted (l : List MatchLocation)
    (hv : ∀ m ∈ l, m.start ≤ m.stop) :
    List.Pairwise (fun a b => a.stop ≤ b.start) (mergeMatches (sortMatches l)) ∧
    List.Sorted startLE (mergeMatches (sortMatches l)) ∧
    ∀ b ∈ mergeMatches (sortMatches l),
      b.start ≤ b.stop ∧
        ∃ m ∈ l, b.start = m.start ∧ b.patternId = m.patternId ∧ m.stop ≤ b.stop := by
  have hperm : List.Perm (sortMatches l) l := by
    unfold sortMatches
    exact List.perm_insertionSort _ l
  have hsorted : List.Sorted startLE (sortMatches l) :=
    List.sorted_insertionSort (fun a b : MatchLocation => a.start ≤ b.start) l
  have hvs : ∀ m ∈ sortMatches l, m.start ≤ m.stop := by
    intro m hm
    exact hv m (hperm.mem_iff.mp hm)
  cases hsl : sortMatches l with
  | nil =>
    refine ⟨by simp [mergeMatches], by simp [mergeMatches], ?_⟩
    intro b hb
    simp [mergeMatches] at hb
  | cons m rest =>
    rw [hsl] at hsorted hvs
    have hvm : m.start ≤ m.stop := hvs m (by simp)
    have hvr : ∀ x ∈ rest, x.start ≤ x.stop := fun x hx => hvs x (by simp [hx])
    have hpw := mergeLoop_pairwise rest m hvm hvr hsorted
    have horig := mergeLoop_origin rest m hvm hvr hsorted
    have hmem : ∀ b ∈ mergeLoop m rest,
        b.start ≤ b.stop ∧
          ∃ x ∈ l, b.start = x.start ∧ b.patternId = x.patternId ∧ x.stop ≤ b.stop := by
      intro b hb
      rcases horig b hb with ⟨hbv, x, hx, h1, h2, h3⟩
      refine ⟨hbv, x, ?_, h1, h2, h3⟩
      have : x ∈ sortMatches l := by rw [hsl]; exact hx
      exact hperm.mem_iff.mp this
    refine ⟨by simpa [mergeMatches] using hpw, ?_, by simpa [mergeMatches] using hmem⟩
    simp only [mergeMatches]
    refine List.Pairwise.imp_of_mem ?_ hpw
    intro a b ha _ hab
    have := (hmem a ha).1
    omega

/-- Witness for C6 at a concrete match list. -/
theorem C6_merge_disjoint_sorted_witness :
    (∀ m ∈ ([⟨5, 9, 7⟩, ⟨2, 6, 0⟩, ⟨8, 12, 3⟩, ⟨20, 22, 9⟩] : List MatchLocation),
        m.start ≤ m.stop) ∧
    (List.Pairwise (fun a b => a.stop ≤ b.start)
        (mergeMatches (sortMatches [⟨5, 9, 7⟩, ⟨2, 6, 0⟩, ⟨8, 12, 3⟩, ⟨20, 22, 9⟩])) ∧
      List.Sorted startLE
        (mergeMatches (sortMatches [⟨5, 9, 7⟩, ⟨2, 6, 0⟩, ⟨8, 12, 3⟩, ⟨20, 22, 9⟩])) ∧
      ∀ b ∈ mergeMatches (sortMatches [⟨5, 9, 7⟩, ⟨2, 6, 0⟩, ⟨8, 12, 3⟩, ⟨20, 22, 9⟩]),
        b.start ≤ b.stop ∧
          ∃ m ∈ ([⟨5, 9, 7⟩, ⟨2, 6, 0⟩, ⟨8, 12, 3⟩, ⟨20, 22, 9⟩] : List MatchLocation),
            b.start = m.start ∧ b.patternId = m.patternId ∧ m.stop ≤ b.stop) :=
  ⟨by decide, C6_merge_disjoint_sorted _ (by decide)⟩

/-! ## C7: the verification step and its regex anchor -/

/-- The spec's verification anchor (§4.6):
`max(0, end_position − length − 10)`; `Int.toNat` realises the clamp
at zero. -/
def specAnchor (m : ACMatch) : Nat :=
  ((m.position : Int) - (m.length : Int) - 10).toNat

/-- Modelled from the spec (§4.6 *Verification*): the same candidate
walk as `verify_ac_matches`, but with the anchor written as the spec's
`max(0, end_position − length − 10)`, recording
`{start = capture[0], end = capture[1], pattern_id}` exactly when the
regex reports a match whose end does not exceed the line length. -/
def verifySpec (exec : RegexExec) (r : Redactor) (line : List Byte) :
    List ACMatch → List MatchLocation → List MatchLocation
  | [], acc => acc
  | ac :: rest, acc =>
    if (PLUMBR_MAX_MATCHES_PER_LINE : Nat) ≤ acc.length then acc
    else
      match patterns_get r.patterns ac.patternId with
      | none => verifySpec exec r line rest acc
      | some pat =>
        match pat.regex with
        | none => verifySpec exec r line rest acc
        | some code =>
          if r.num_patterns ≤ ac.patternId ∨ ¬ r.matchData ac.patternId then
            verifySpec exec r line rest acc
          else
            match exec code line (specAnchor ac) with
            | some cap =>
              if cap.2 ≤ line.length then
                verifySpec exec r line rest (acc ++ [⟨cap.1, cap.2, ac.patternId⟩])
              else verifySpec exec r line rest acc
            | none => verifySpec exec r line rest acc

/-- The C's two guarded `size_t` subtractions compute the spec's
clamped anchor for every candidate. -/
theorem anchor_arith (p L : Nat) :
    (if 10 ≤ (if L ≤ p then p - L else 0) then (if L ≤ p then p - L else 0) - 10
      else 0) = ((p : Int) - (L : Int) - 10).toNat := by
  split
  · split at *
    · omega
    · omega
  · split at *
    · omega
    · omega

/-- C7: for candidates with `1 ≤ length ≤ end_position + 1`, the
verification step starts each regex search at
`max(0, end_position − length − 10)` and records
`{start = capture[0], end = capture[1], pattern_id}` exactly when the
regex reports a match whose end does not exceed the line length — i.e.
`verify_ac_matches` coincides with the spec-worded `verifySpec`. -/
theorem C7_verify_anchor (exec : RegexExec) (r : Redactor) (line : List Byte)
    (acms : List ACMatch)
    (hlen : ∀ m ∈ acms, 1 ≤ m.length ∧ m.length ≤ m.position + 1) :
    ∀ acc, verify_ac_matches exec r line acms acc = verifySpec exec r line acms acc := by
  induction acms with
  | nil => intro acc; rfl
  | cons ac rest ih =>
    intro acc
    have ihr := ih (fun m hm => hlen m (by simp [hm]))
    simp only [verify_ac_matches, verifySpec, specAnchor,
      anchor_arith ac.position ac.length]
    split
    · rfl
    · split
      · exact ihr acc
      · split
        · exact ihr acc
        · split
          · exact ihr acc
          · split
            · split
              · exact ihr _
              · exact ihr acc
            · exact ihr acc

/-- Witness for C7 at a concrete candidate list (the oracle reports a
match at `[0, 4)`). -/
theorem C7_verify_anchor_witness :
    (∀ m ∈ ([⟨3, 0, 4⟩] : List ACMatch), 1 ≤ m.length ∧ m.length ≤ m.position + 1) ∧
    ∀ acc,
      verify_ac_matches (fun _ _ _ => some (0, 4))
          { patterns :=
              { patterns := fun _ =>
                  { emptyPattern with regex := some 0, replacement := [(0 : Byte)] }
                count := 1, capacity := 1, automaton := ac_create, sentinel := none
                hot_ac := none, hot_count := 0, built := true }
            output_capacity := 16, matchData := fun _ => true, num_patterns := 1
            triggers := [], trigger_count := 0, use_sse42 := false
            lines_scanned := 0, lines_modified := 0, patterns_matched := 0
            lines_prefiltered := 0, lines_sentinel_filtered := 0 }
          [(65 : Byte), 75, 73, 65] [⟨3, 0, 4⟩] acc =
        verifySpec (fun _ _ _ => some (0, 4))
          { patterns :=
              { patterns := fun _ =>
                  { emptyPattern with regex := some 0, replacement := [(0 : Byte)] }
                count := 1, capacity := 1, automaton := ac_create, sentinel := none
                hot_ac := none, hot_count := 0, built := true }
            output_capacity := 16, matchData := fun _ => true, num_patterns := 1
            triggers := [], trigger_count := 0, use_sse42 := false
            lines_scanned := 0, lines_modified := 0, patterns_matched := 0
            lines_prefiltered := 0, lines_sentinel_filtered := 0 }
          [(65 : Byte), 75, 73, 65] [⟨3, 0, 4⟩] acc :=
  ⟨by decide, C7_verify_anchor _ _ _ _ (by decide)⟩

/-! ## C10: failed `patterns_add` leaves the observable set unchanged -/

/-- C10: whenever `patterns_add` returns failure — set already built,
set at capacity, or regex compilation failed — the observable pattern
set is unchanged: same `count`, and `patterns_get` returns the same
record for every id (a compilation failure writes only the invisible
scratch slot at index `count`). -/
theorem C10_add_failure_frame (compile : List Byte → Option Nat)
    (ps : PatternSet) (name : String) (lit : Option (List Byte))
    (rgx : List Byte) (rep : Option (List Byte))
    (hfail : (patterns_add compile ps name lit rgx rep).1 = false) :
    (patterns_add compile ps name lit rgx rep).2.count = ps.count ∧
    ∀ id, patterns_get (patterns_add compile ps name lit rgx rep).2 id =
      patterns_get ps id := by
  by_cases hb : ps.built = true
  · constructor
    · simp [patterns_add, hb]
    · intro id
      simp [patterns_add, hb]
  · by_cases hcap : ps.capacity ≤ ps.count
    · constructor
      · simp [patterns_add, hb, hcap]
      · intro id
        simp [patterns_add, hb, hcap]
    · cases hc : compile rgx with
      | none =>
        constructor
        · simp [patterns_add, hb, hcap, hc]
        · intro id
          simp only [patterns_add, hb, hcap, hc, Bool.false_eq_true, if_false,
            if_neg hcap]
          unfold patterns_get
          simp only []
          split
          · rfl
          · rename_i hid
            simp only [updF]
            rw [if_neg (by omega)]
      | some code =>
        exfalso
        simp [patterns_add, hb, hcap, hc] at hfail

/-- Witness for C10: a regex-compilation failure on a fresh set. -/
theorem C10_add_failure_frame_witness :
    (patterns_add (fun _ => none) (patterns_create 4) "x" none [] none).1 = false ∧
    ((patterns_add (fun _ => none) (patterns_create 4) "x" none [] none).2.count =
        (patterns_create 4).count ∧
      ∀ id, patterns_get
          (patterns_add (fun _ => none) (patterns_create 4) "x" none [] none).2 id =
        patterns_get (patterns_create 4) id) :=
  ⟨rfl, C10_add_failure_frame _ _ _ _ _ _ rfl⟩

/-! ## C1: fail-closed truncation — refuted by the tail copy -/

/-- The input line of the C1 truncation scenario. -/
def leakLine : List Byte := strBytes "aaAKIA"

/-- A pattern whose replacement is 15 bytes long. -/
def leakPattern : Pattern :=
  { name := "t", literal := strBytes "AKIA", hasLiteral := true, regex := some 0
    replacement := List.replicate 15 (charByte 'X'), id := 0 }

/-- A built pattern set holding `leakPattern`. -/
def leakPS : PatternSet :=
  { patterns := fun _ => leakPattern, count := 1, capacity := 4
    automaton := ac_create, sentinel := none, hot_ac := none, hot_count := 0
    built := true }

/-- A redactor over `leakPS` with output capacity 16. -/
def leakRedactor : Redactor :=
  { patterns := leakPS, output_capacity := 16, matchData := fun _ => true
    num_patterns := 1, triggers := [], trigger_count := 0, use_sse42 := false
    lines_scanned := 0, lines_modified := 0, patterns_matched := 0
    lines_prefiltered := 0, lines_sentinel_filtered := 0 }

/-- C1 is violated by `redactor_apply` at this input: with output
capacity 16, line `"aaAKIA"` (6 bytes) and the single verified match
`[2, 6)` whose replacement is 15 bytes, the rewrite loop copies the
2-byte prefix, breaks at the replacement append (2 + 15 ≥ 16), and the
final tail copy then still fits (2 + 6 < 16) and copies `line[0..6)`
from the un-advanced input cursor: the emitted buffer is
`"aa" ++ "aaAKIA"`.  It duplicates the prefix, contains every byte of
the verified match span `[2, 6)` unredacted past the truncation point,
is not a prefix of the fully redacted line `"aa" ++ replacement`, and is
not the unmodified input — the engine fails open, contradicting the
fail-closed requirement. -/
theorem C1_truncation_leak :
    (redactor_apply leakRedactor leakLine [⟨2, 6, 0⟩]).2 =
      ProcResult.buffer (strBytes "aaaaAKIA") ∧
    (strBytes "aaaaAKIA").drop 4 = leakLine.drop 2 ∧
    ¬ List.IsPrefix (strBytes "aaaaAKIA")
        (strBytes "aa" ++ List.replicate 15 (charByte 'X')) ∧
    strBytes "aaaaAKIA" ≠ leakLine := by
  exact ⟨by decide, by decide, by decide, by decide⟩

/-! ## C8: no verified match returns the input pointer unchanged -/

/-- `verify_ac_matches` reads the redactor only through `patterns`,
`num_patterns` and `matchData`; stats updates do not change it. -/
theorem verify_congr (exec : RegexExec) (r1 r2 : Redactor) (line : List Byte)
    (hp : r1.patterns = r2.patterns) (hn : r1.num_patterns = r2.num_patterns)
    (hm : r1.matchData = r2.matchData) :
    ∀ acms acc,
      verify_ac_matches exec r1 line acms acc = verify_ac_matches exec r2 line acms acc := by
  intro acms
  induction acms with
  | nil => intro acc; rfl
  | cons ac rest ih =>
    intro acc
    simp only [verify_ac_matches, hp, hn, hm]
    split
    · rfl
    · split
      · exact ih acc
      · split
        · exact ih acc
        · split
          · exact ih acc
          · split
            · split
              · exact ih _
              · exact ih acc
            · exact ih acc

/-- An empty cold verification list makes `coldScan` return the input. -/
theorem coldScan_input (exec : RegexExec) (r : Redactor) (line : List Byte)
    (hv : verify_ac_matches exec r line
      (ac_search_all r.patterns.automaton line PLUMBR_MAX_MATCHES_PER_LINE) [] = []) :
    (coldScan exec r line).2 = ProcResult.input := by
  unfold coldScan
  simp only [hv, List.length_nil, Nat.lt_irrefl, if_false]
  split
  · rfl
  · rfl

/-- Empty hot and cold verification lists make `hotThenCold` return the
input. -/
theorem hotThenCold_input (exec : RegexExec) (r : Redactor) (line : List Byte)
    (hhot : ∀ hot, r.patterns.hot_ac = some hot →
      verify_ac_matches exec r line
        (ac_search_all hot line PLUMBR_MAX_MATCHES_PER_LINE) [] = [])
    (hv : verify_ac_matches exec r line
      (ac_search_all r.patterns.automaton line PLUMBR_MAX_MATCHES_PER_LINE) [] = []) :
    (hotThenCold exec r line).2 = ProcResult.input := by
  unfold hotThenCold
  cases hh : r.patterns.hot_ac with
  | none => exact coldScan_input exec r line hv
  | some hot =>
    simp only []
    split
    · rename_i hlen
      rw [hhot hot hh]
      simp only [List.length_nil, Nat.lt_irrefl, if_false]
      have hcongr := verify_congr exec
        { r with patterns_matched := r.patterns_matched + 0 } r line rfl rfl rfl
      refine Eq.trans ?_ (coldScan_input exec
        { r with patterns_matched := r.patterns_matched + 0 } line ?_)
      · rfl
      · rw [hcongr]
        exact hv
    · exact coldScan_input exec r line hv

/-- C8: `redactor_process` never mutates the input (the model returns
`ProcResult.input`, the C returns the `line` pointer itself).  A
zero-length input returns immediately with `out_len = 0`.  Whenever no
verified match exists — hot-phase verification (when a hot automaton is
present) and cold-phase verification both produce nothing, or the line
is rejected by the pre-filter or the sentinel — the result is the input
pointer with `out_len` equal to the input length. -/
theorem C8_no_match_returns_input (exec : RegexExec) (r : Redactor) :
    (redactor_process exec r [] =
        ({ r with lines_scanned := r.lines_scanned + 1 }, ProcResult.input) ∧
      procLen [] ProcResult.input = 0) ∧
    (∀ line : List Byte,
      (∀ hot, r.patterns.hot_ac = some hot →
        verify_ac_matches exec r line
          (ac_search_all hot line PLUMBR_MAX_MATCHES_PER_LINE) [] = []) →
      verify_ac_matches exec r line
          (ac_search_all r.patterns.automaton line PLUMBR_MAX_MATCHES_PER_LINE) [] = [] →
      (redactor_process exec r line).2 = ProcResult.input ∧
        procLen line (redactor_process exec r line).2 = line.length) ∧
    (∀ line : List Byte,
      r.use_sse42 = true → 0 < r.trigger_count →
      sse42_has_triggers r.triggers r.trigger_count line = false →
      (∀ se, r.patterns.sentinel = some se → ac_search_has_match se line = false) →
      (redactor_process exec r line).2 = ProcResult.input) ∧
    (∀ line : List Byte, ∀ se, r.patterns.sentinel = some se →
      ac_search_has_match se line = false →
      (redactor_process exec r line).2 = ProcResult.input) := by
  have hcb : ∀ line,
      ∀ acms acc, verify_ac_matches exec { r with lines_scanned := r.lines_scanned + 1 }
        line acms acc = verify_ac_matches exec r line acms acc := by
    intro line
    exact verify_congr exec _ r line rfl rfl rfl
  refine ⟨⟨rfl, rfl⟩, ?_, ?_, ?_⟩
  · intro line hhot hcold
    constructor
    · unfold redactor_process
      simp only []
      split
      · rfl
      · split
        · split
          · split
            · refine coldScan_input exec _ line ?_
              rw [hcb line]
              exact hcold
            · rfl
          · rfl
        · split
          · split
            · rfl
            · refine hotThenCold_input exec _ line ?_ ?_
              · intro hot hh
                rw [hcb line]
                exact hhot hot (by simpa using hh)
              · rw [hcb line]
                exact hcold
          · refine hotThenCold_input exec _ line ?_ ?_
            · intro hot hh
              rw [hcb line]
              exact hhot hot (by simpa using hh)
            · rw [hcb line]
              exact hcold
    · cases hres : (redactor_process exec r line).2 with
      | input => rfl
      | buffer b =>
        exfalso
        have : (redactor_process exec r line).2 = ProcResult.input := by
          unfold redactor_process
          simp only []
          split
          · rfl
          · split
            · split
              · split
                · refine coldScan_input exec _ line ?_
                  rw [hcb line]
                  exact hcold
                · rfl
              · rfl
            · split
              · split
                · rfl
                · refine hotThenCold_input exec _ line ?_ ?_
                  · intro hot hh
                    rw [hcb line]
                    exact hhot hot (by simpa using hh)
                  · rw [hcb line]
                    exact hcold
              · refine hotThenCold_input exec _ line ?_ ?_
                · intro hot hh
                  rw [hcb line]
                  exact hhot hot (by simpa using hh)
                · rw [hcb line]
                  exact hcold
        rw [hres] at this
        exact ProcResult.noConfusion this
  · intro line hsse htc hno hsent
    unfold redactor_process
    simp only []
    split
    · rfl
    · rw [if_pos ⟨by simpa using hsse, by simpa using htc, by simpa using hno⟩]
      cases hs : r.patterns.sentinel with
      | none => rfl
      | some se =>
        simp [hsent se hs]
  · intro line se hs hno
    unfold redactor_process
    simp only []
    split
    · rfl
    · split
      · rw [hs]
        simp [hno]
      · rw [hs]
        simp [hno]

/-- A concrete redactor for the C8 witness: SSE filter active with the
single trigger `Z`, a sentinel automaton that never matches (unbuilt),
no hot automaton, and an empty pattern set. -/
def r8 : Redactor :=
  { patterns :=
      { patterns := fun _ => emptyPattern, count := 0, capacity := 0
        automaton := ac_create, sentinel := some ac_create, hot_ac := none
        hot_count := 0, built := true }
    output_capacity := 16, matchData := fun _ => false, num_patterns := 0
    triggers := [charByte 'Z'], trigger_count := 1, use_sse42 := true
    lines_scanned := 0, lines_modified := 0, patterns_matched := 0
    lines_prefiltered := 0, lines_sentinel_filtered := 0 }

/-- Witness for C8 at the line `[97]` (no trigger byte, sentinel says
no): all hypotheses of every conjunct are discharged concretely. -/
theorem C8_no_match_returns_input_witness :
    (redactor_process (fun _ _ _ => none) r8 [(97 : Byte)]).2 = ProcResult.input ∧
    procLen [(97 : Byte)] (redactor_process (fun _ _ _ => none) r8 [(97 : Byte)]).2 = 1 ∧
    (redactor_process (fun _ _ _ => none) r8 [(97 : Byte)]).2 = ProcResult.input ∧
    (redactor_process (fun _ _ _ => none) r8 [(97 : Byte)]).2 = ProcResult.input := by
  have H := C8_no_match_returns_input (fun _ _ _ => none) r8
  refine ⟨?_, ?_, ?_, ?_⟩
  · exact (H.2.1 [(97 : Byte)] (fun hot h => Option.noConfusion h) (by decide)).1
  · exact (H.2.1 [(97 : Byte)] (fun hot h => Option.noConfusion h) (by decide)).2
  · refine H.2.2.1 [(97 : Byte)] rfl (by decide) (by decide) ?_
    intro se hse
    rw [← Option.some.inj hse]
    decide
  · exact H.2.2.2 [(97 : Byte)] ac_create rfl (by decide)

/-! ## C2: compressed and flat representations scan identically -/

/-- The bit test `bm[word] & (1ULL << bit)` is `Nat.testBit`. -/
theorem and_shiftLeft_eq_zero_iff (x b : Nat) :
    x &&& (1 <<< b) = 0 ↔ x.testBit b = false := by
  have h2 : (1 : Nat) <<< b = 2 ^ b := by
    simp [Nat.shiftLeft_eq]
  rw [h2]
  constructor
  · intro h
    by_contra hb
    rw [Bool.not_eq_false] at hb
    have : (x &&& 2 ^ b).testBit b = true := by
      simp [Nat.testBit_and, hb, Nat.testBit_two_pow]
    rw [h] at this
    simp [Nat.zero_testBit] at this
  · intro h
    apply Nat.eq_of_testBit_eq
    intro j
    simp only [Nat.testBit_and, Nat.zero_testBit, Nat.testBit_two_pow]
    by_cases hj : j = b
    · subst hj
      simp [h]
    · simp [Ne.symm hj]

/-- Counting a conjunction with an upper bound over a range restricts
the range. -/
theorem countP_range_lt (q : Nat → Bool) (b : Nat) :
    ∀ n, b ≤ n →
      (List.range n).countP (fun i => q i && decide (i < b)) =
        (List.range b).countP q := by
  intro n hbn
  rcases Nat.exists_eq_add_of_le hbn with ⟨k, rfl⟩
  rw [List.range_add, List.countP_append]
  have h2 : ((List.range k).map (b + ·)).countP (fun i => q i && decide (i < b)) = 0 := by
    rw [List.countP_eq_zero]
    intro a ha
    rcases List.mem_map.mp ha with ⟨i, _, rfl⟩
    simp
  rw [h2, Nat.add_zero]
  apply List.countP_congr
  intro i hi
  have := List.mem_range.mp hi
  simp [this]

/-- Splitting a count below `64*w + b` into whole 64-bit words plus a
partial word. -/
theorem countP_range_words (q : Nat → Bool) :
    ∀ (w : Nat) (b : Nat),
      (List.range (64 * w + b)).countP q =
        ((List.range w).map
            (fun j => (List.range 64).countP (fun i => q (64 * j + i)))).sum +
          (List.range b).countP (fun i => q (64 * w + i)) := by
  intro w
  induction w with
  | zero =>
    intro b
    simp
  | succ w ih =>
    intro b
    have harith : 64 * (w + 1) + b = 64 * w + (64 + b) := by omega
    rw [harith, ih (64 + b), List.range_add, List.countP_append]
    rw [List.range_succ w, List.map_append, List.sum_append]
    have hmap : ((List.range b).map (fun i => 64 + i)).countP (fun i => q (64 * w + i)) =
        (List.range b).countP (fun i => q (64 * (w + 1) + i)) := by
      rw [List.countP_map]
      apply List.countP_congr
      intro i _
      have : 64 * w + (64 + i) = 64 * (w + 1) + i := by omega
      simp [Function.comp, this]
    rw [hmap]
    simp only [List.map_cons, List.map_nil, List.sum_cons, List.sum_nil]
    omega

/-- Index of a member of a strictly ascending byte list: the number of
elements with smaller value. -/
theorem get_countP_of_ascending (c : Byte) :
    ∀ l : List Byte, List.Pairwise (fun a b : Byte => a.val < b.val) l →
      c ∈ l →
      l.get? (l.countP (fun x => decide (x.val < c.val))) = some c := by
  intro l
  induction l with
  | nil => intro _ h; cases h
  | cons h t ih =>
    intro hpw hc
    have hpw2 := List.pairwise_cons.mp hpw
    rcases List.mem_cons.mp hc with rfl | hct
    · have hz : (c :: t).countP (fun x => decide (x.val < c.val)) = 0 := by
        rw [List.countP_eq_zero]
        intro a ha
        rcases List.mem_cons.mp ha with rfl | hat
        · simp
        · have := hpw2.1 a hat
          simp only [decide_eq_true_eq]
          omega
      rw [hz]
      rfl
    · have hlt : h.val < c.val := hpw2.1 c hct
      have hcount : (h :: t).countP (fun x => decide (x.val < c.val)) =
          t.countP (fun x => decide (x.val < c.val)) + 1 := by
        rw [List.countP_cons]
        simp [hlt]
      rw [hcount]
      exact ih hpw2.2 hct

/-- The packed transition list collects the non-default targets in byte
order. -/
theorem compRowFold_trans (row : Byte → Nat) (dt : Nat) :
    ∀ (L : List Byte) (bm : Nat → Nat) (tr : List Nat),
      (compRowFold row dt L bm tr).2 =
        tr ++ (L.filter (fun c => decide (¬(row c = dt)))).map row := by
  intro L
  induction L with
  | nil =>
    intro bm tr
    simp [compRowFold]
  | cons c rest ih =>
    intro bm tr
    by_cases h : row c = dt
    · simp [compRowFold, h, ih]
    · simp [compRowFold, h, ih]

/-- Bits accumulated by the row fold: word `c / 64`, bit `c % 64`, for
exactly the non-default bytes. -/
theorem compRowFold_bitmap (row : Byte → Nat) (dt : Nat) :
    ∀ (L : List Byte) (bm : Nat → Nat) (tr : List Nat) (w j : Nat),
      ((compRowFold row dt L bm tr).1 w).testBit j = true ↔
        ((bm w).testBit j = true ∨
          ∃ c ∈ L, ¬(row c = dt) ∧ c.val / 64 = w ∧ c.val % 64 = j) := by
  intro L
  induction L with
  | nil =>
    intro bm tr w j
    simp [compRowFold]
  | cons c rest ih =>
    intro bm tr w j
    by_cases h : row c = dt
    · rw [show compRowFold row dt (c :: rest) bm tr = compRowFold row dt rest bm tr from by
        simp [compRowFold, h]]
      rw [ih]
      constructor
      · rintro (hb | ⟨x, hx, h1, h2, h3⟩)
        · exact Or.inl hb
        · exact Or.inr ⟨x, by simp [hx], h1, h2, h3⟩
      · rintro (hb | ⟨x, hx, h1, h2, h3⟩)
        · exact Or.inl hb
        · rcases List.mem_cons.mp hx with rfl | hx2
          · exact absurd h h1
          · exact Or.inr ⟨x, hx2, h1, h2, h3⟩
    · rw [show compRowFold row dt (c :: rest) bm tr =
          compRowFold row dt rest
            (updF bm (c.val / 64) (bm (c.val / 64) ||| (1 <<< (c.val % 64))))
            (tr ++ [row c]) from by
        simp [compRowFold, h]]
      rw [ih]
      have hsh : (1 : Nat) <<< (c.val % 64) = 2 ^ (c.val % 64) := by
        simp [Nat.shiftLeft_eq]
      constructor
      · rintro (hb | ⟨x, hx, h1, h2, h3⟩)
        · simp only [updF] at hb
          by_cases hw : w = c.val / 64
          · rw [if_pos hw, hsh, Nat.testBit_or] at hb
            rcases Bool.or_eq_true_iff.mp hb with hb1 | hb2
            · exact Or.inl (by rw [hw]; exact hb1)
            · rw [Nat.testBit_two_pow] at hb2
              have : c.val % 64 = j := by simpa using hb2
              exact Or.inr ⟨c, by simp, h, hw.symm, this⟩
          · rw [if_neg hw] at hb
            exact Or.inl hb
        · exact Or.inr ⟨x, by simp [hx], h1, h2, h3⟩
      · rintro (hb | ⟨x, hx, h1, h2, h3⟩)
        · left
          simp only [updF]
          by_cases hw : w = c.val / 64
          · rw [if_pos hw, hsh, Nat.testBit_or, ← hw]
            simp [hb]
          · rw [if_neg hw]
            exact hb
        · rcases List.mem_cons.mp hx with rfl | hx2
          · left
            simp only [updF]
            rw [if_pos h2.symm, hsh, Nat.testBit_or, Nat.testBit_two_pow]
            simp [h3]
          · exact Or.inr ⟨x, hx2, h1, h2, h3⟩

/-- Bit `i` of word `w` of a built compressed row tests divergence of
byte `64*w + i`. -/
theorem buildCompRow_bitmap_at (row : Byte → Nat) (w i : Nat) (hw : w < 4)
    (hi : i < 64) :
    (((buildCompRow row).bitmap w).testBit i = true) ↔
      ¬(row ⟨64 * w + i, by omega⟩ = pickDefault row) := by
  have hchar := compRowFold_bitmap row (pickDefault row) (List.finRange 256)
    (fun _ => 0) [] w i
  have hbm : (buildCompRow row).bitmap = (compRowFold row (pickDefault row)
      (List.finRange 256) (fun _ => 0) []).1 := rfl
  rw [hbm, hchar]
  constructor
  · rintro (hz | ⟨c, _, h1, h2, h3⟩)
    · simp [Nat.zero_testBit] at hz
    · have hcv : c.val = 64 * w + i := by omega
      have : c = ⟨64 * w + i, by omega⟩ := Fin.ext hcv
      rwa [← this]
  · intro hdiv
    refine Or.inr ⟨⟨64 * w + i, by omega⟩, List.mem_finRange _, hdiv, ?_, ?_⟩
    · show (64 * w + i) / 64 = w
      omega
    · show (64 * w + i) % 64 = i
      omega

/-- Divergence of the raw byte value `v` in a row (false beyond 255). -/
def divergedAt (row : Byte → Nat) (dt : Nat) (v : Nat) : Bool :=
  if h : v < 256 then decide (¬(row ⟨v, h⟩ = dt)) else false

/-- Popcount of one full bitmap word counts the diverged bytes of that
word. -/
theorem popcount_word (row : Byte → Nat) (w : Nat) (hw : w < 4) :
    popcount64 ((buildCompRow row).bitmap w) =
      (List.range 64).countP (fun i => divergedAt row (pickDefault row) (64 * w + i)) := by
  unfold popcount64
  rw [← List.countP_eq_length_filter]
  apply List.countP_congr
  intro i hi
  have hi64 := List.mem_range.mp hi
  rw [buildCompRow_bitmap_at row w i hw hi64]
  unfold divergedAt
  rw [dif_pos (by omega)]
  simp

/-- Popcount of the masked word counts the diverged bytes strictly below
bit `b`. -/
theorem popcount_masked (row : Byte → Nat) (w b : Nat) (hw : w < 4) (hb : b ≤ 64) :
    popcount64 ((buildCompRow row).bitmap w &&& (1 <<< b - 1)) =
      (List.range b).countP (fun i => divergedAt row (pickDefault row) (64 * w + i)) := by
  unfold popcount64
  rw [← List.countP_eq_length_filter]
  rw [← countP_range_lt (fun i => divergedAt row (pickDefault row) (64 * w + i)) b 64 hb]
  apply List.countP_congr
  intro i hi
  have hi64 := List.mem_range.mp hi
  have hmask : ((buildCompRow row).bitmap w &&& (1 <<< b - 1)).testBit i =
      (((buildCompRow row).bitmap w).testBit i && decide (i < b)) := by
    rw [show (1 : Nat) <<< b = 2 ^ b from by simp [Nat.shiftLeft_eq], Nat.testBit_and,
      Nat.testBit_two_pow_sub_one]
  rw [hmask]
  by_cases hib : i < b
  · have hdec : decide (i < b) = true := by simpa using hib
    rw [hdec]
    simp only [Bool.and_true]
    rw [buildCompRow_bitmap_at row w i hw hi64]
    unfold divergedAt
    rw [dif_pos (show 64 * w + i < 256 by omega)]
    simp
  · have hdec : decide (i < b) = false := by simpa using hib
    rw [hdec]
    simp

/-- `compressed_lookup` on a row built by `buildCompRow` returns the
original row entry for every byte: the clear-bit path returns the
default (equal to the entry), and the set-bit path indexes the packed
transitions by the prefix popcount. -/
theorem compressed_lookup_buildCompRow (rows : Nat → CompRow) (row : Byte → Nat)
    (s : Nat) (hs : rows s = buildCompRow row) (c : Byte) :
    compressed_lookup rows s c = row c := by
  have hclt : c.val < 256 := c.isLt
  have hw : c.val / 64 < 4 := by omega
  have hb : c.val % 64 < 64 := by omega
  have hdt : (buildCompRow row).defTarget = pickDefault row := rfl
  have hbit := buildCompRow_bitmap_at row (c.val / 64) (c.val % 64) hw hb
  have hfin : (⟨64 * (c.val / 64) + c.val % 64, by omega⟩ : Byte) = c :=
    Fin.ext (show 64 * (c.val / 64) + c.val % 64 = c.val by omega)
  rw [hfin] at hbit
  unfold compressed_lookup
  rw [hs]
  by_cases hdiv : row c = pickDefault row
  · rw [if_pos]
    · rw [hdt, hdiv]
    · rw [and_shiftLeft_eq_zero_iff]
      rw [Bool.eq_false_iff]
      intro hcon
      exact (hbit.mp hcon) hdiv
  · rw [if_neg]
    · set q := divergedAt row (pickDefault row) with hq
      have hsum : ((List.range (c.val / 64)).map
            (fun i => popcount64 ((buildCompRow row).bitmap i))).sum +
            popcount64 ((buildCompRow row).bitmap (c.val / 64) &&&
              (1 <<< (c.val % 64) - 1)) =
          (List.range c.val).countP q := by
        rw [List.map_congr_left
            (fun j hj => popcount_word row j (by
              have := List.mem_range.mp hj
              omega))]
        rw [popcount_masked row (c.val / 64) (c.val % 64) hw (by omega)]
        have harith : c.val = 64 * (c.val / 64) + c.val % 64 := by omega
        conv_rhs => rw [harith]
        exact (countP_range_words q (c.val / 64) (c.val % 64)).symm
      rw [hsum]
      -- the packed transition list and its indexing
      have htr : (buildCompRow row).trans =
          ((List.finRange 256).filter (fun x => decide (¬(row x = pickDefault row)))).map
            row := by
        have := compRowFold_trans row (pickDefault row) (List.finRange 256)
          (fun _ => 0) []
        simpa using this
      have hpos : (List.range c.val).countP q =
          ((List.finRange 256).filter
              (fun x => decide (¬(row x = pickDefault row)))).countP
            (fun x => decide (x.val < c.val)) := by
        rw [List.countP_filter]
        have hcoe : (List.finRange 256).countP
            (fun x => decide (x.val < c.val) && decide (¬(row x = pickDefault row))) =
            (List.range 256).countP (fun v => q v && decide (v < c.val)) := by
          rw [← List.map_coe_finRange 256, List.countP_map]
          apply List.countP_congr
          intro x _
          simp only [Function.comp, hq]
          unfold divergedAt
          rw [dif_pos x.isLt]
          cases hxa : decide (x.val < c.val) <;>
            cases hxb : decide (¬(row ⟨x.val, x.isLt⟩ = pickDefault row)) <;>
              simp_all [Fin.eta]
        rw [hcoe, countP_range_lt q c.val 256 (by omega)]
      rw [hpos]
      have hasc : List.Pairwise (fun a b : Byte => a.val < b.val)
          ((List.finRange 256).filter (fun x => decide (¬(row x = pickDefault row)))) :=
        List.Pairwise.filter _ ((List.pairwise_lt_finRange 256).imp (fun h => h))
      have hmemf : c ∈ (List.finRange 256).filter
          (fun x => decide (¬(row x = pickDefault row))) := by
        rw [List.mem_filter]
        exact ⟨List.mem_finRange c, by simpa using hdiv⟩
      have hget := get_countP_of_ascending c _ hasc hmemf
      rw [htr, List.getD_eq_get?, List.get?_map, hget]
      rfl
    · rw [and_shiftLeft_eq_zero_iff]
      simp only [Bool.not_eq_false]
      exact hbit.mpr hdiv

/-- Fields of the automaton the BFS completion pass never writes
(it writes only `gotoT`, `fail` and `output`). -/
def SamePres (a b : ACAutomaton) : Prop :=
  a.numStates = b.numStates ∧ a.capacity = b.capacity ∧
    a.numPatterns = b.numPatterns ∧ a.built = b.built ∧
    a.forceFlat = b.forceFlat ∧ a.depth = b.depth ∧ a.isFinal = b.isFinal ∧
    a.patternId = b.patternId ∧ a.dfa = b.dfa ∧ a.rootRow = b.rootRow ∧
    a.compressed = b.compressed

theorem samePres_refl (a : ACAutomaton) : SamePres a a :=
  ⟨rfl, rfl, rfl, rfl, rfl, rfl, rfl, rfl, rfl, rfl, rfl⟩

theorem samePres_trans {a b c : ACAutomaton} (h1 : SamePres a b)
    (h2 : SamePres b c) : SamePres a c := by
  obtain ⟨a1, a2, a3, a4, a5, a6, a7, a8, a9, a10, a11⟩ := h1
  obtain ⟨b1, b2, b3, b4, b5, b6, b7, b8, b9, b10, b11⟩ := h2
  exact ⟨a1.trans b1, a2.trans b2, a3.trans b3, a4.trans b4, a5.trans b5,
    a6.trans b6, a7.trans b7, a8.trans b8, a9.trans b9, a10.trans b10,
    a11.trans b11⟩

theorem rootStep_pres (st : BuildSt) (c : Byte) :
    SamePres (rootStep st c).ac st.ac := by
  unfold rootStep
  cases st.ac.gotoT 0 c <;> exact samePres_refl _

theorem foldl_rootStep_pres (L : List Byte) :
    ∀ st : BuildSt, SamePres (L.foldl rootStep st).ac st.ac := by
  induction L with
  | nil => intro st; exact samePres_refl _
  | cons c rest ih =>
    intro st
    rw [List.foldl_cons]
    exact samePres_trans (ih (rootStep st c)) (rootStep_pres st c)

theorem rootComplete_pres (ac : ACAutomaton) :
    SamePres (rootComplete ac).ac ac :=
  foldl_rootStep_pres (List.finRange 256) { ac := ac, qdata := [], qhead := 0 }

theorem bfsChar_pres (r : Nat) (st : BuildSt) (c : Byte) :
    ∀ st1, bfsChar r st c = some st1 → SamePres st1.ac st.ac := by
  intro st1 h1
  unfold bfsChar at h1
  cases hg : st.ac.gotoT r c <;> rw [hg] at h1 <;>
    cases hf : st.ac.gotoT (st.ac.fail r) c <;> rw [hf] at h1
  case none.none => exact Option.noConfusion h1
  case none.some => cases h1; exact samePres_refl _
  case some.none => exact Option.noConfusion h1
  case some.some => cases h1; exact samePres_refl _

theorem bfsState_pres (L : List Byte) :
    ∀ (st : BuildSt) (r : Nat) (st1 : BuildSt),
      List.foldlM (fun s c => bfsChar r s c) st L = some st1 →
        SamePres st1.ac st.ac := by
  induction L with
  | nil =>
    intro st r st1 h
    cases h
    exact samePres_refl _
  | cons c rest ih =>
    intro st r st1 h
    rw [List.foldlM_cons] at h
    cases hc : bfsChar r st c with
    | none => rw [hc] at h; exact Option.noConfusion h
    | some st2 =>
      rw [hc] at h
      exact samePres_trans (ih st2 r st1 h) (bfsChar_pres r st c st2 hc)

/-- `bfsState` stated on the fold it is defined as. -/
theorem bfsState_pres2 (st : BuildSt) (r : Nat) (st1 : BuildSt)
    (h : bfsState st r = some st1) : SamePres st1.ac st.ac := by
  unfold bfsState at h
  exact bfsState_pres (List.finRange 256) st r st1 h

theorem bfsLoop_pres (fuel : Nat) :
    ∀ (st st1 : BuildSt), bfsLoop fuel st = some st1 → SamePres st1.ac st.ac := by
  induction fuel with
  | zero =>
    intro st st1 h
    unfold bfsLoop at h
    split at h
    · cases h; exact samePres_refl _
    · exact Option.noConfusion h
  | succ fuel ih =>
    intro st st1 h
    unfold bfsLoop at h
    cases hq : st.qdata.get? st.qhead with
    | none =>
      rw [hq] at h
      cases h
      exact samePres_refl _
    | some r =>
      rw [hq] at h
      dsimp only at h
      cases hs : bfsState { st with qhead := st.qhead + 1 } r with
      | none => rw [hs] at h; exact Option.noConfusion h
      | some st2 =>
        rw [hs] at h
        exact samePres_trans (ih st2 st1 h)
          (bfsState_pres2 { st with qhead := st.qhead + 1 } r st2 hs)

/-- Tagging the build state with `force_flat`. -/
def flagSt (st : BuildSt) : BuildSt := { st with ac := ac_set_force_flat st.ac }

theorem rootStep_flag (ac : ACAutomaton) (qd : List Nat) (qh : Nat) (c : Byte) :
    rootStep { ac := ac_set_force_flat ac, qdata := qd, qhead := qh } c =
      flagSt (rootStep { ac := ac, qdata := qd, qhead := qh } c) := by
  unfold rootStep flagSt ac_set_force_flat
  dsimp only
  cases ac.gotoT 0 c <;> rfl

theorem foldl_rootStep_flag (L : List Byte) :
    ∀ (ac : ACAutomaton) (qd : List Nat) (qh : Nat),
      L.foldl rootStep { ac := ac_set_force_flat ac, qdata := qd, qhead := qh } =
        flagSt (L.foldl rootStep { ac := ac, qdata := qd, qhead := qh }) := by
  induction L with
  | nil => intro ac qd qh; rfl
  | cons c rest ih =>
    intro ac qd qh
    rw [List.foldl_cons, List.foldl_cons, rootStep_flag]
    have hstep := ih (rootStep { ac := ac, qdata := qd, qhead := qh } c).ac
      (rootStep { ac := ac, qdata := qd, qhead := qh } c).qdata
      (rootStep { ac := ac, qdata := qd, qhead := qh } c).qhead
    exact hstep

theorem rootComplete_flag (ac : ACAutomaton) :
    rootComplete (ac_set_force_flat ac) = flagSt (rootComplete ac) :=
  foldl_rootStep_flag (List.finRange 256) ac [] 0

theorem bfsChar_flag (r : Nat) (ac : ACAutomaton) (qd : List Nat) (qh : Nat)
    (c : Byte) :
    bfsChar r { ac := ac_set_force_flat ac, qdata := qd, qhead := qh } c =
      Option.map flagSt (bfsChar r { ac := ac, qdata := qd, qhead := qh } c) := by
  unfold bfsChar ac_set_force_flat flagSt
  dsimp only
  cases ac.gotoT r c <;> cases ac.gotoT (ac.fail r) c <;> rfl

theorem bfsState_flag (L : List Byte) :
    ∀ (ac : ACAutomaton) (qd : List Nat) (qh : Nat) (r : Nat),
      List.foldlM (fun s c => bfsChar r s c)
          ({ ac := ac_set_force_flat ac, qdata := qd, qhead := qh } : BuildSt) L =
        Option.map flagSt
          (List.foldlM (fun s c => bfsChar r s c)
            ({ ac := ac, qdata := qd, qhead := qh } : BuildSt) L) := by
  induction L with
  | nil => intro ac qd qh r; rfl
  | cons c rest ih =>
    intro ac qd qh r
    rw [List.foldlM_cons, List.foldlM_cons, bfsChar_flag]
    cases bfsChar r { ac := ac, qdata := qd, qhead := qh } c with
    | none => rfl
    | some st2 => exact ih st2.ac st2.qdata st2.qhead r

theorem bfsLoop_flag (fuel : Nat) :
    ∀ (ac : ACAutomaton) (qd : List Nat) (qh : Nat),
      bfsLoop fuel ({ ac := ac_set_force_flat ac, qdata := qd, qhead := qh } : BuildSt) =
        Option.map flagSt
          (bfsLoop fuel ({ ac := ac, qdata := qd, qhead := qh } : BuildSt)) := by
  induction fuel with
  | zero =>
    intro ac qd qh
    unfold bfsLoop
    dsimp only
    by_cases h : qd.length ≤ qh
    · rw [if_pos h, if_pos h]
      rfl
    · rw [if_neg h, if_neg h]
      rfl
  | succ fuel ih =>
    intro ac qd qh
    unfold bfsLoop
    dsimp only
    cases qd.get? qh with
    | none => rfl
    | some r =>
      dsimp only
      have hbr := bfsState_flag (List.finRange 256) ac qd (qh + 1) r
      unfold bfsState
      rw [hbr]
      cases List.foldlM (fun s c => bfsChar r s c)
          ({ ac := ac, qdata := qd, qhead := qh + 1 } : BuildSt)
          (List.finRange 256) with
      | none => rfl
      | some st2 => exact ih st2.ac st2.qdata st2.qhead

/-- Building the same trie with and without `force_flat` yields the
same completed transition tables and match metadata; only the
materialised representation differs: a flat table on one side, the flat
root row plus bitmap-compressed rows on the other. -/
theorem ac_build_pair (ac : ACAutomaton) (hb : ac.built = false)
    (hf : ac.forceFlat = false) :
    ∀ acF acC, ac_build (ac_set_force_flat ac) = some acF →
      ac_build ac = some acC →
      acF.numStates = acC.numStates ∧ acF.gotoT = acC.gotoT ∧
      acF.output = acC.output ∧ acF.patternId = acC.patternId ∧
      acF.depth = acC.depth ∧ acF.isFinal = acC.isFinal ∧
      acF.built = true ∧ acC.built = true ∧
      acF.dfa = some (flatRow acC.gotoT) ∧
      acC.dfa = none ∧ acC.rootRow = some (flatRow acC.gotoT 0) ∧
      acC.compressed = some (fun s => buildCompRow (flatRow acC.gotoT s)) := by
  intro acF acC hF hC
  unfold ac_build at hF hC
  rw [hb] at hC
  have hbF : (ac_set_force_flat ac).built = false := hb
  rw [hbF] at hF
  simp only [Bool.false_eq_true, if_false] at hF hC
  rw [rootComplete_flag] at hF
  have hns : (ac_set_force_flat ac).numStates = ac.numStates := rfl
  rw [hns] at hF
  have hrcp := rootComplete_pres ac
  generalize hrc : rootComplete ac = rc at hF hC hrcp
  have hfl : bfsLoop ac.numStates (flagSt rc) =
      Option.map flagSt (bfsLoop ac.numStates rc) :=
    bfsLoop_flag ac.numStates rc.ac rc.qdata rc.qhead
  rw [hfl] at hF
  cases hres : bfsLoop ac.numStates rc with
  | none =>
    rw [hres] at hC
    exact Option.noConfusion hC
  | some st =>
    rw [hres] at hF hC
    rw [show Option.map flagSt (some st) = some (flagSt st) from rfl] at hF
    dsimp only [flagSt, ac_set_force_flat] at hF
    simp only [] at hC
    have hpres : SamePres st.ac ac :=
      samePres_trans (bfsLoop_pres ac.numStates rc st hres) hrcp
    have hffst : st.ac.forceFlat = false := hpres.2.2.2.2.1.trans hf
    by_cases hn : 32767 < st.ac.numStates
    · rw [if_pos hn] at hC
      exact Option.noConfusion hC
    · rw [if_neg hn] at hC
      rw [if_neg (show ¬ 32767 < ({ st.ac with forceFlat := true} :
        ACAutomaton).numStates from hn)] at hF
      rw [if_pos (show ({ st.ac with forceFlat := true} :
        ACAutomaton).forceFlat = true from rfl)] at hF
      rw [if_neg (show ¬ st.ac.forceFlat = true by simp [hffst])] at hC
      cases hF
      cases hC
      exact ⟨rfl, rfl, rfl, rfl, rfl, rfl, rfl, rfl, rfl, rfl, rfl, rfl⟩

/-- The output-chain walk depends only on the match metadata. -/
theorem matchChain_congr {σ : Type} (ac1 ac2 : ACAutomaton)
    (hfin : ac1.isFinal = ac2.isFinal) (hout : ac1.output = ac2.output)
    (hpid : ac1.patternId = ac2.patternId) (hdep : ac1.depth = ac2.depth)
    (cb : ACMatch → σ → Bool × σ) (i : Nat) :
    ∀ fuel ms s, matchChain ac1 cb i fuel ms s = matchChain ac2 cb i fuel ms s := by
  intro fuel
  induction fuel with
  | zero => intro ms s; rfl
  | succ fuel ih =>
    intro ms s
    unfold matchChain
    rw [hfin, hout, hpid, hdep]
    split
    · dsimp only
      split
      · cases cb ⟨i, ac2.patternId ms.toNat, ac2.depth ms.toNat⟩ s with
        | mk cont s1 =>
          cases cont
          · rfl
          · exact ih _ _
      · exact ih _ _
    · rfl

/-- The byte loop depends only on the transition function and the match
metadata. -/
theorem searchLoop_congr {σ : Type} (ac1 ac2 : ACAutomaton)
    (n1 n2 : Nat → Byte → Nat)
    (hfin : ac1.isFinal = ac2.isFinal) (hout : ac1.output = ac2.output)
    (hpid : ac1.patternId = ac2.patternId) (hdep : ac1.depth = ac2.depth)
    (hns : ac1.numStates = ac2.numStates)
    (hnext : ∀ s c, n1 s c = n2 s c) (cb : ACMatch → σ → Bool × σ) :
    ∀ text i state s,
      searchLoop ac1 n1 cb text i state s = searchLoop ac2 n2 cb text i state s := by
  intro text
  induction text with
  | nil => intro i state s; rfl
  | cons c rest ih =>
    intro i state s
    unfold searchLoop
    dsimp only
    rw [hnext state c, hns,
      matchChain_congr ac1 ac2 hfin hout hpid hdep cb i ac2.numStates
        (Int.ofNat (n2 state c)) s]
    cases matchChain ac2 cb i ac2.numStates (Int.ofNat (n2 state c)) s with
    | mk cont s1 =>
      cases cont
      · rfl
      · exact ih _ _ _

/-- `ac_add_pattern` never touches `built`, `forceFlat` or the
representation fields. -/
theorem ac_add_loop_flags (bytes : List Byte) :
    ∀ (ac : ACAutomaton) (state d : Nat),
      ((ac_add_loop ac state d bytes).2.1.built = ac.built ∧
        (ac_add_loop ac state d bytes).2.1.forceFlat = ac.forceFlat) := by
  induction bytes with
  | nil => intro ac state d; exact ⟨rfl, rfl⟩
  | cons c rest ih =>
    intro ac state d
    unfold ac_add_loop
    cases hg : ac.gotoT state c with
    | some next => exact ih ac next (d + 1)
    | none =>
      unfold ac_new_state
      by_cases hcap : ac.capacity ≤ ac.numStates
      · rw [if_pos hcap]
        exact ⟨rfl, rfl⟩
      · rw [if_neg hcap]
        dsimp only
        exact ih _ _ _

theorem ac_add_pattern_flags (ac : ACAutomaton) (pat : List Byte) (pid : Nat) :
    (ac_add_pattern ac pat pid).2.built = ac.built ∧
      (ac_add_pattern ac pat pid).2.forceFlat = ac.forceFlat := by
  unfold ac_add_pattern
  split
  · exact ⟨rfl, rfl⟩
  · split
    · exact ⟨rfl, rfl⟩
    · cases hl : ac_add_loop ac 0 1 pat with
      | mk ok rest =>
        have hfl := ac_add_loop_flags pat ac 0 1
        rw [hl] at hfl
        cases ok
        · exact hfl
        · exact hfl

/-- The automaton obtained by feeding a list of literals (with their
pattern ids) into a fresh automaton. -/
def addAll (pats : List (List Byte × Nat)) : ACAutomaton :=
  pats.foldl (fun a p => (ac_add_pattern a p.1 p.2).2) ac_create

theorem addAll_flags (pats : List (List Byte × Nat)) :
    (addAll pats).built = false ∧ (addAll pats).forceFlat = false := by
  unfold addAll
  suffices h : ∀ (ac : ACAutomaton),
      (pats.foldl (fun a p => (ac_add_pattern a p.1 p.2).2) ac).built = ac.built ∧
      (pats.foldl (fun a p => (ac_add_pattern a p.1 p.2).2) ac).forceFlat =
        ac.forceFlat by
    exact ⟨(h ac_create).1, (h ac_create).2⟩
  induction pats with
  | nil => intro ac; exact ⟨rfl, rfl⟩
  | cons p rest ih =>
    intro ac
    rw [List.foldl_cons]
    have h1 := ac_add_pattern_flags ac p.1 p.2
    have h2 := ih (ac_add_pattern ac p.1 p.2).2
    exact ⟨h2.1.trans h1.1, h2.2.trans h1.2⟩

/-- C2: for every literal set and every input, a built automaton in the
compressed representation (flat root row, per-state default target,
256-bit divergence bitmap, popcount-indexed packed targets) produces
exactly the same sequence of matches as the flat `state_count × 256`
table built from the same goto tables: the generic callback search and
`ac_search_all` agree on the two representations. -/
theorem C2_compressed_flat_equiv (pats : List (List Byte × Nat))
    (acF acC : ACAutomaton)
    (hF : ac_build (ac_set_force_flat (addAll pats)) = some acF)
    (hC : ac_build (addAll pats) = some acC) (text : List Byte) :
    (∀ (σ : Type) (cb : ACMatch → σ → Bool × σ) (s0 : σ),
      ac_search acF text cb s0 = ac_search acC text cb s0) ∧
    ∀ maxm, ac_search_all acF text maxm = ac_search_all acC text maxm := by
  obtain ⟨hns, hgoto, hout, hpid, hdep, hfin, hbF, hbC, hdfaF, hdfaC, hrootC,
    hcompC⟩ :=
    ac_build_pair (addAll pats) (addAll_flags pats).1 (addAll_flags pats).2
      acF acC hF hC
  have hsearch : ∀ (σ : Type) (cb : ACMatch → σ → Bool × σ) (s0 : σ),
      ac_search acF text cb s0 = ac_search acC text cb s0 := by
    intro σ cb s0
    unfold ac_search
    rw [hbF, hbC]
    by_cases hlen : text.length = 0
    · simp [hlen]
    · simp only [hlen, Bool.true_eq_false, not_true_eq_false, or_false,
        if_false, not_false_eq_true, false_or, if_neg]
      unfold acNext
      rw [hdfaF, hdfaC, hrootC, hcompC]
      dsimp only
      refine searchLoop_congr acF acC _ _ hfin hout hpid hdep hns ?_ cb text 0 0 s0
      intro s c
      by_cases hs : s = 0
      · rw [hs, if_pos rfl]
      · rw [if_neg hs]
        exact (compressed_lookup_buildCompRow _ (flatRow acC.gotoT s) s rfl c).symm
  exact ⟨hsearch, fun maxm => hsearch _ _ []⟩

/-! ## Build correctness: trie well-formedness -/

/-- The shape `ac_create` and `ac_add_pattern` guarantee before the
build: a rooted trie with parent ids below child ids, unique parents,
depths along edges, untouched outputs, and a non-final root. -/
structure WFTrie (ac : ACAutomaton) : Prop where
  one_le : 1 ≤ ac.numStates
  entries : ∀ p c u, ac.gotoT p c = some u → 1 ≤ u ∧ u < ac.numStates ∧ p < u
  hi_none : ∀ p c, ac.numStates ≤ p → ac.gotoT p c = none
  parent_exists : ∀ u, 1 ≤ u → u < ac.numStates → ∃ p c, ac.gotoT p c = some u
  parent_unique : ∀ p c q d u, ac.gotoT p c = some u → ac.gotoT q d = some u →
    p = q ∧ c = d
  depth_edge : ∀ p c u, ac.gotoT p c = some u → ac.depth u = ac.depth p + 1
  depth_root : ac.depth 0 = 0
  root_not_final : ∀ u, ac.isFinal u = true → 1 ≤ u ∧ u < ac.numStates
  output_init : ∀ u, ac.output u = -1

theorem wfTrie_create : WFTrie ac_create := by
  refine ⟨le_rfl, ?_, ?_, ?_, ?_, ?_, rfl, ?_, ?_⟩
  · intro p c u h
    exact Option.noConfusion h
  · intro p c _
    rfl
  · intro u h1 h2
    simp only [ac_create] at h2
    omega
  · intro p c q d u h
    exact Option.noConfusion h
  · intro p c u h
    exact Option.noConfusion h
  · intro u h
    exact absurd h (by simp [ac_create])
  · intro u
    rfl

/-- The invariant the `ac_add_pattern` walk maintains, together with
everything the callers need about the returned automaton and state. -/
theorem ac_add_loop_wf (bytes : List Byte) :
    ∀ (ac : ACAutomaton) (state d : Nat), WFTrie ac →
      state < ac.numStates → ac.depth state + 1 = d →
      WFTrie (ac_add_loop ac state d bytes).2.1 ∧
        ac.numStates ≤ (ac_add_loop ac state d bytes).2.1.numStates ∧
        (ac_add_loop ac state d bytes).2.1.numStates ≤ ac.numStates + bytes.length ∧
        (ac_add_loop ac state d bytes).2.2 < (ac_add_loop ac state d bytes).2.1.numStates ∧
        (bytes = [] → (ac_add_loop ac state d bytes).2.2 = state) ∧
        (bytes ≠ [] → (ac_add_loop ac state d bytes).1 = true →
          1 ≤ (ac_add_loop ac state d bytes).2.2) := by
  induction bytes with
  | nil =>
    intro ac state d hwf hst _
    exact ⟨hwf, le_rfl, by simp [ac_add_loop], hst, fun _ => rfl, fun h => absurd rfl h⟩
  | cons c rest ih =>
    intro ac state d hwf hst hdep
    unfold ac_add_loop
    cases hg : ac.gotoT state c with
    | some next =>
      dsimp only
      have hnext := hwf.entries state c next hg
      have hd := hwf.depth_edge state c next hg
      have hres := ih ac next (d + 1) hwf hnext.2.1 (by omega)
      refine ⟨hres.1, hres.2.1, ?_, hres.2.2.2.1, ?_, ?_⟩
      · have h3 := hres.2.2.1
        simp only [List.length_cons]
        omega
      · intro h
        exact List.noConfusion h
      · intro _ hok
        cases hrest : rest with
        | nil =>
          rw [hrest] at hres
          have h5 := hres.2.2.2.2.1 rfl
          omega
        | cons y ys =>
          rw [hrest] at hres hok
          exact hres.2.2.2.2.2 (by simp) hok
    | none =>
      dsimp only
      unfold ac_new_state
      by_cases hcap : ac.capacity ≤ ac.numStates
      · rw [if_pos hcap]
        dsimp only
        exact ⟨hwf, le_rfl, by simp, hst, fun h => List.noConfusion h,
          fun _ h => Bool.noConfusion h⟩
      · rw [if_neg hcap]
        dsimp only
        set sid := ac.numStates with hsid
        set ac1 : ACAutomaton :=
          { ac with
            numStates := sid + 1
            gotoT := fun u b => if u = sid then none else ac.gotoT u b
            fail := updF ac.fail sid 0
            output := updF ac.output sid (-1)
            patternId := updF ac.patternId sid 0
            depth := updF ac.depth sid d
            isFinal := updF ac.isFinal sid false } with hac1
        set ac2 : ACAutomaton :=
          { ac1 with gotoT := updG ac1.gotoT state c (some sid) } with hac2
        have hwf2 : WFTrie ac2 := by
          refine ⟨by simp [hac2, hac1], ?_, ?_, ?_, ?_, ?_, ?_, ?_, ?_⟩
          · intro p b u h
            simp only [hac2, hac1, updG] at h
            by_cases hpb : p = state ∧ b = c
            · rw [if_pos hpb] at h
              cases h
              simp [hac2, hac1]
              omega
            · rw [if_neg hpb] at h
              by_cases hp : p = sid
              · rw [if_pos hp] at h
                exact Option.noConfusion h
              · rw [if_neg hp] at h
                have := hwf.entries p b u h
                simp [hac2, hac1]
                omega
          · intro p b hp
            simp only [hac2, hac1, updG]
            simp only [hac2, hac1] at hp
            rw [if_neg, if_neg]
            · exact hwf.hi_none p b (by omega)
            · omega
            · rintro ⟨rfl, rfl⟩
              omega
          · intro u h1 h2
            simp only [hac2, hac1] at h2
            by_cases hu : u = sid
            · exact ⟨state, c, by simp [hac2, updG, hu]⟩
            · rcases hwf.parent_exists u h1 (by omega) with ⟨p, b, hpb⟩
              have hpn := hwf.entries p b u hpb
              refine ⟨p, b, ?_⟩
              simp only [hac2, hac1, updG]
              rw [if_neg, if_neg]
              · exact hpb
              · omega
              · rintro ⟨rfl, rfl⟩
                rw [hg] at hpb
                exact Option.noConfusion hpb
          · intro p b q e u h1 h2
            simp only [hac2, hac1, updG] at h1 h2
            by_cases hpb : p = state ∧ b = c
            · rw [if_pos hpb] at h1
              cases h1
              by_cases hqe : q = state ∧ e = c
              · exact ⟨hpb.1.trans hqe.1.symm, hpb.2.trans hqe.2.symm⟩
              · rw [if_neg hqe] at h2
                by_cases hq : q = sid
                · rw [if_pos hq] at h2
                  exact Option.noConfusion h2
                · rw [if_neg hq] at h2
                  have := hwf.entries q e sid h2
                  omega
            · rw [if_neg hpb] at h1
              by_cases hp : p = sid
              · rw [if_pos hp] at h1
                exact Option.noConfusion h1
              · rw [if_neg hp] at h1
                by_cases hqe : q = state ∧ e = c
                · rw [if_pos hqe] at h2
                  cases h2
                  have := hwf.entries p b sid h1
                  omega
                · rw [if_neg hqe] at h2
                  by_cases hq : q = sid
                  · rw [if_pos hq] at h2
                    exact Option.noConfusion h2
                  · rw [if_neg hq] at h2
                    exact hwf.parent_unique p b q e u h1 h2
          · intro p b u h
            simp only [hac2, hac1, updG] at h
            by_cases hpb : p = state ∧ b = c
            · rw [if_pos hpb] at h
              cases h
              simp only [hac2, hac1, updF, if_true]
              rw [if_neg, hpb.1]
              · omega
              · rw [hpb.1]
                omega
            · rw [if_neg hpb] at h
              by_cases hp : p = sid
              · rw [if_pos hp] at h
                exact Option.noConfusion h
              · rw [if_neg hp] at h
                have hent := hwf.entries p b u h
                simp only [hac2, hac1, updF]
                rw [if_neg, if_neg]
                · exact hwf.depth_edge p b u h
                · omega
                · omega
          · simp only [hac2, hac1, updF]
            rw [if_neg (by omega)]
            exact hwf.depth_root
          · intro u h
            simp only [hac2, hac1, updF] at h
            by_cases hu : u = sid
            · rw [if_pos hu] at h
              exact Bool.noConfusion h
            · rw [if_neg hu] at h
              have := hwf.root_not_final u h
              simp [hac2, hac1]
              omega
          · intro u
            simp only [hac2, hac1, updF]
            by_cases hu : u = sid
            · rw [if_pos hu]
            · rw [if_neg hu]
              exact hwf.output_init u
        have hres := ih ac2 sid (d + 1) hwf2 (by simp [hac2, hac1])
          (by simp [hac2, hac1, updF])
        have hns2 : ac2.numStates = ac.numStates + 1 := rfl
        refine ⟨hres.1, by omega, by simp at hres ⊢; omega, hres.2.2.2.1, ?_, ?_⟩
        · intro h
          exact List.noConfusion h
        · intro _ hok
          cases hrest : rest with
          | nil =>
            rw [hrest] at hres
            have h5 := hres.2.2.2.2.1 rfl
            have h6 := hwf.one_le
            omega
          | cons y ys =>
            rw [hrest] at hres hok
            exact hres.2.2.2.2.2 (by simp) hok

/-- `ac_add_pattern` preserves trie well-formedness and grows the state
count by at most the pattern length. -/
theorem ac_add_pattern_wf (ac : ACAutomaton) (pat : List Byte) (pid : Nat)
    (hwf : WFTrie ac) :
    WFTrie (ac_add_pattern ac pat pid).2 ∧
      ac.numStates ≤ (ac_add_pattern ac pat pid).2.numStates ∧
      (ac_add_pattern ac pat pid).2.numStates ≤ ac.numStates + pat.length := by
  unfold ac_add_pattern
  split
  · exact ⟨hwf, le_rfl, Nat.le_add_right _ _⟩
  · split
    · exact ⟨hwf, le_rfl, Nat.le_add_right _ _⟩
    · rename_i hlen
      have hres := ac_add_loop_wf pat ac 0 1 hwf hwf.one_le
        (by rw [hwf.depth_root])
      cases hl : ac_add_loop ac 0 1 pat with
      | mk ok rest2 =>
        cases rest2 with
        | mk ac1 st =>
          rw [hl] at hres
          cases ok with
          | false => exact ⟨hres.1, hres.2.1, hres.2.2.1⟩
          | true =>
            dsimp only
            have hpat : pat ≠ [] := by
              intro h
              rw [h] at hlen
              exact hlen rfl
            have hst1 : 1 ≤ st := hres.2.2.2.2.2 hpat rfl
            have hstn : st < ac1.numStates := hres.2.2.2.1
            have hwf1 := hres.1
            refine ⟨⟨hwf1.one_le, hwf1.entries, hwf1.hi_none,
              hwf1.parent_exists, hwf1.parent_unique, hwf1.depth_edge,
              hwf1.depth_root, ?_, hwf1.output_init⟩, hres.2.1, hres.2.2.1⟩
            intro u h
            simp only [updF] at h
            by_cases hu : u = st
            · subst hu
              exact ⟨hst1, hstn⟩
            · rw [if_neg hu] at h
              exact hwf1.root_not_final u h

/-- Building the trie from any literal list yields a well-formed trie of
at most `1 +` the total literal length many states. -/
theorem addAll_wf (pats : List (List Byte × Nat)) :
    WFTrie (addAll pats) ∧
      (addAll pats).numStates ≤
        1 + (pats.map (fun p => p.1.length)).sum := by
  unfold addAll
  suffices h : ∀ (ac : ACAutomaton), WFTrie ac →
      WFTrie (pats.foldl (fun a p => (ac_add_pattern a p.1 p.2).2) ac) ∧
        (pats.foldl (fun a p => (ac_add_pattern a p.1 p.2).2) ac).numStates ≤
          ac.numStates + (pats.map (fun p => p.1.length)).sum by
    have h2 := h ac_create wfTrie_create
    exact ⟨h2.1, h2.2⟩
  induction pats with
  | nil =>
    intro ac hwf
    exact ⟨hwf, by simp⟩
  | cons p rest ih =>
    intro ac hwf
    have hp := ac_add_pattern_wf ac p.1 p.2 hwf
    have hr := ih (ac_add_pattern ac p.1 p.2).2 hp.1
    refine ⟨hr.1, ?_⟩
    simp only [List.foldl_cons, List.map_cons, List.sum_cons] at hr ⊢
    omega

/-! ## Build correctness: the BFS invariant -/

/-- A state the BFS has already popped (or the root, completed by the
first pass). -/
def Completed (st : BuildSt) (u : Nat) : Prop :=
  u = 0 ∨ ∃ j, j < st.qhead ∧ st.qdata.get? j = some u

/-- The output link of `u` is either empty or a final state of strictly
smaller depth. -/
def OutputOK (ac0 : ACAutomaton) (ac : ACAutomaton) (u : Nat) : Prop :=
  ac.output u = -1 ∨ ∃ v : Nat, ac.output u = (v : Int) ∧ 1 ≤ v ∧
    v < ac0.numStates ∧ ac0.isFinal v = true ∧ ac0.depth v < ac0.depth u

/-- The invariant of the BFS queue loop of `ac_build`, relative to the
original trie `ac0`. -/
structure BInv (ac0 : ACAutomaton) (st : BuildSt) : Prop where
  nodup : st.qdata.Nodup
  mem_range : ∀ u ∈ st.qdata, 1 ≤ u ∧ u < ac0.numStates
  head_le : st.qhead ≤ st.qdata.length
  ns_eq : st.ac.numStates = ac0.numStates
  depth_eq : st.ac.depth = ac0.depth
  final_eq : st.ac.isFinal = ac0.isFinal
  pid_eq : st.ac.patternId = ac0.patternId
  orig_pres : ∀ p c u, ac0.gotoT p c = some u → st.ac.gotoT p c = some u
  root_row : ∀ c, st.ac.gotoT 0 c = some ((ac0.gotoT 0 c).getD 0)
  completed_row : ∀ u, Completed st u → ∀ c, ∃ t, st.ac.gotoT u c = some t ∧
      t < ac0.numStates ∧ (t = 0 ∨ t ∈ st.qdata) ∧
      ac0.depth t ≤ ac0.depth u + 1
  unprocessed_row : ∀ u, ¬ Completed st u → ∀ c,
      st.ac.gotoT u c = ac0.gotoT u c
  fail_earlier : ∀ i u, st.qdata.get? i = some u →
      st.ac.fail u = 0 ∨ ∃ j, j < i ∧ st.qdata.get? j = some (st.ac.fail u)
  fail_depth : ∀ u ∈ st.qdata, ac0.depth (st.ac.fail u) < ac0.depth u
  output_q : ∀ u ∈ st.qdata, OutputOK ac0 st.ac u
  output_rest : ∀ u, u ∉ st.qdata → st.ac.output u = -1
  queued_parent : ∀ u ∈ st.qdata, ∃ p c, ac0.gotoT p c = some u ∧
      Completed st p
  all_reached : ∀ u, 1 ≤ u → u < ac0.numStates →
      u ∈ st.qdata ∨ ∃ p c, ac0.gotoT p c = some u ∧ ¬ Completed st p

/-- Characterisation of the first pass of `ac_build` (`rootStep` folded
over a duplicate-free byte list): root children are queued in column
order with failure link 0, missing root columns become self loops, and
nothing else changes. -/
theorem rootChars (L : List Byte) : L.Nodup → ∀ stc : BuildSt,
    (L.foldl rootStep stc).qhead = stc.qhead ∧
    (L.foldl rootStep stc).qdata =
      stc.qdata ++ L.filterMap (fun c => stc.ac.gotoT 0 c) ∧
    (L.foldl rootStep stc).ac.numStates = stc.ac.numStates ∧
    (L.foldl rootStep stc).ac.depth = stc.ac.depth ∧
    (L.foldl rootStep stc).ac.isFinal = stc.ac.isFinal ∧
    (L.foldl rootStep stc).ac.patternId = stc.ac.patternId ∧
    (L.foldl rootStep stc).ac.output = stc.ac.output ∧
    (∀ c ∈ L,
      (L.foldl rootStep stc).ac.gotoT 0 c = some ((stc.ac.gotoT 0 c).getD 0)) ∧
    (∀ u c, (u = 0 → c ∉ L) →
      (L.foldl rootStep stc).ac.gotoT u c = stc.ac.gotoT u c) ∧
    (∀ c ∈ L, ∀ u, stc.ac.gotoT 0 c = some u →
      (L.foldl rootStep stc).ac.fail u = 0) ∧
    (∀ u, (∀ c ∈ L, stc.ac.gotoT 0 c ≠ some u) →
      (L.foldl rootStep stc).ac.fail u = stc.ac.fail u) := by
  induction L with
  | nil =>
    intro _ stc
    exact ⟨rfl, by simp, rfl, rfl, rfl, rfl, rfl, by simp, fun _ _ _ => rfl,
      by simp, fun _ _ => rfl⟩
  | cons c rest ih =>
    intro hnd stc
    have hcrest : c ∉ rest := (List.nodup_cons.mp hnd).1
    have hndr : rest.Nodup := (List.nodup_cons.mp hnd).2
    rw [List.foldl_cons]
    have key : (rootStep stc c).ac.gotoT 0 c = some ((stc.ac.gotoT 0 c).getD 0) ∧
        (∀ c', c' ≠ c → ∀ u, (rootStep stc c).ac.gotoT u c' = stc.ac.gotoT u c') ∧
        (∀ u c', u ≠ 0 → (rootStep stc c).ac.gotoT u c' = stc.ac.gotoT u c') ∧
        (rootStep stc c).qhead = stc.qhead ∧
        (rootStep stc c).qdata =
          stc.qdata ++ (stc.ac.gotoT 0 c).toList ∧
        (rootStep stc c).ac.numStates = stc.ac.numStates ∧
        (rootStep stc c).ac.depth = stc.ac.depth ∧
        (rootStep stc c).ac.isFinal = stc.ac.isFinal ∧
        (rootStep stc c).ac.patternId = stc.ac.patternId ∧
        (rootStep stc c).ac.output = stc.ac.output ∧
        (∀ u, stc.ac.gotoT 0 c = some u → (rootStep stc c).ac.fail u = 0) ∧
        (∀ u, stc.ac.gotoT 0 c ≠ some u →
          (rootStep stc c).ac.fail u = stc.ac.fail u) := by
      unfold rootStep
      cases hg : stc.ac.gotoT 0 c with
      | some s =>
        dsimp only
        refine ⟨by rw [hg]; rfl, fun c' _ u => rfl, fun u c' _ => rfl, rfl,
          by simp, rfl, rfl, rfl, rfl, rfl, ?_, ?_⟩
        · intro u hu
          cases hu
          simp [updF]
        · intro u hu
          have : u ≠ s := fun h => hu (by rw [h])
          simp [updF, this]
      | none =>
        dsimp only
        refine ⟨?_, ?_, ?_, rfl, by simp, rfl, rfl, rfl, rfl, rfl,
          fun u hu => Option.noConfusion hu, fun u _ => rfl⟩
        · simp [updG, hg]
        · intro c' hc' u
          simp only [updG]
          rw [if_neg]
          rintro ⟨-, h2⟩
          exact hc' h2
        · intro u c' hu
          simp only [updG]
          rw [if_neg]
          rintro ⟨h1, -⟩
          exact hu h1
    obtain ⟨k1, k2, k3, k4, k5, k6, k7, k8, k9, k10, k11, k12⟩ := key
    have hres := ih hndr (rootStep stc c)
    obtain ⟨r1, r2, r3, r4, r5, r6, r7, r8, r9, r10, r11⟩ := hres
    have hbr : ∀ c' ∈ rest, (rootStep stc c).ac.gotoT 0 c' = stc.ac.gotoT 0 c' :=
      fun c' hc' => k2 c' (fun h => hcrest (h ▸ hc')) 0
    refine ⟨r1.trans k4, ?_, r3.trans k6, r4.trans k7, r5.trans k8,
      r6.trans k9, r7.trans k10, ?_, ?_, ?_, ?_⟩
    · rw [r2, k5, List.filterMap_cons, List.append_assoc]
      congr 1
      cases hg : stc.ac.gotoT 0 c with
      | some s => simp [hg, List.filterMap_congr hbr]
      | none => simp [hg, List.filterMap_congr hbr]
    · intro c' hc'
      rcases List.mem_cons.mp hc' with rfl | hc'
      · rw [r9 0 c' (fun _ => hcrest), k1]
      · rw [r8 c' hc', hbr c' hc']
    · intro u c' hno
      rw [r9 u c' (fun hu => fun hmem => hno hu (List.mem_cons_of_mem c hmem))]
      by_cases hu : u = 0
      · subst hu
        exact k2 c' (fun h => hno rfl (h ▸ List.mem_cons_self c rest)) 0
      · exact k3 u c' hu
    · intro c' hc' u hg
      rcases List.mem_cons.mp hc' with rfl | hc'
      · by_cases hch : ∃ c'' ∈ rest, (rootStep stc c').ac.gotoT 0 c'' = some u
        · rcases hch with ⟨c'', hc'', hg''⟩
          exact r10 c'' hc'' u hg''
        · push_neg at hch
          rw [r11 u (fun c'' hc'' h => hch c'' hc'' h)]
          exact k11 u hg
      · rw [r10 c' hc' u ((hbr c' hc').trans hg)]
    · intro u hno
      rw [r11 u (fun c'' hc'' h =>
        hno c'' (List.mem_cons_of_mem c hc'') ((hbr c'' hc'').symm.trans h))]
      exact k12 u (fun h => hno c (List.mem_cons_self c rest) h)

/-- After the first pass (`rootComplete`) the BFS invariant holds, with
exactly the root's children queued. -/
theorem rootComplete_inv (ac0 : ACAutomaton) (W : WFTrie ac0) :
    BInv ac0 (rootComplete ac0) := by
  have hr := rootChars (List.finRange 256) (List.nodup_finRange 256)
    { ac := ac0, qdata := [], qhead := 0 }
  obtain ⟨r1, r2, r3, r4, r5, r6, r7, r8, r9, r10, r11⟩ := hr
  rw [rootComplete] at *
  set st0 := (List.finRange 256).foldl rootStep
    { ac := ac0, qdata := [], qhead := 0 } with hst0
  dsimp only at r1 r2 r3 r4 r5 r6 r7 r8 r9 r10 r11
  have hmemq : ∀ u, u ∈ st0.qdata ↔ ∃ c, ac0.gotoT 0 c = some u := by
    intro u
    rw [r2]
    simp only [List.nil_append, List.mem_filterMap]
    constructor
    · rintro ⟨c, _, hc⟩
      exact ⟨c, hc⟩
    · rintro ⟨c, hc⟩
      exact ⟨c, List.mem_finRange c, hc⟩
  have hcompl : ∀ u, Completed st0 u ↔ u = 0 := by
    intro u
    constructor
    · rintro (h | ⟨j, hj, _⟩)
      · exact h
      · rw [r1] at hj
        omega
    · intro h
      exact Or.inl h
  refine ⟨?_, ?_, ?_, r3, r4, r5, r6, ?_, ?_, ?_, ?_, ?_, ?_, ?_, ?_, ?_, ?_⟩
  · rw [r2]
    simp only [List.nil_append]
    exact List.Nodup.filterMap
      (fun a a' b hb hb' =>
        (W.parent_unique 0 a 0 a' b (Option.mem_def.mp hb)
          (Option.mem_def.mp hb')).2)
      (List.nodup_finRange 256)
  · intro u hu
    rcases (hmemq u).mp hu with ⟨c, hc⟩
    have := W.entries 0 c u hc
    exact ⟨this.1, this.2.1⟩
  · rw [r1, r2]
    simp
  · intro p c u h
    by_cases hp : p = 0
    · subst hp
      rw [r8 c (List.mem_finRange c), h]
      rfl
    · rw [r9 p c (fun h0 => absurd h0 hp), h]
  · intro c
    exact r8 c (List.mem_finRange c)
  · intro u hu c
    rw [(hcompl u).mp hu]
    rw [r8 c (List.mem_finRange c)]
    cases hg : ac0.gotoT 0 c with
    | some s =>
      have := W.entries 0 c s hg
      refine ⟨s, by simp, this.2.1, Or.inr ((hmemq s).mpr ⟨c, hg⟩), ?_⟩
      rw [W.depth_edge 0 c s hg]
    | none =>
      exact ⟨0, by simp, by have := W.one_le; omega, Or.inl rfl, by omega⟩
  · intro u hu c
    have hu0 : u ≠ 0 := fun h => hu ((hcompl u).mpr h)
    exact r9 u c (fun h0 => absurd h0 hu0)
  · intro i u hget
    have hu : u ∈ st0.qdata := List.get?_mem hget
    rcases (hmemq u).mp hu with ⟨c, hc⟩
    exact Or.inl (r10 c (List.mem_finRange c) u hc)
  · intro u hu
    rcases (hmemq u).mp hu with ⟨c, hc⟩
    rw [r10 c (List.mem_finRange c) u hc, W.depth_edge 0 c u hc, W.depth_root]
    omega
  · intro u hu
    left
    rw [r7]
    exact W.output_init u
  · intro u _
    rw [r7]
    exact W.output_init u
  · intro u hu
    rcases (hmemq u).mp hu with ⟨c, hc⟩
    exact ⟨0, c, hc, Or.inl rfl⟩
  · intro u h1 h2
    rcases W.parent_exists u h1 h2 with ⟨p, c, hpc⟩
    by_cases hp : p = 0
    · subst hp
      exact Or.inl ((hmemq u).mpr ⟨c, hpc⟩)
    · exact Or.inr ⟨p, c, hpc, fun h => hp ((hcompl p).mp h)⟩

/-- Characterisation of one BFS pop (`bfsChar` folded over a
duplicate-free byte list, with the popped state's row fresh and its
failure row total): children are queued in column order and get their
failure/output links from the failure row, missing columns are filled
from the failure row, and nothing else changes. -/
theorem bfsChars (r : Nat) (L : List Byte) : L.Nodup →
    ∀ (stc : BuildSt) (f : Nat),
      stc.ac.fail r = f → r ≠ f →
      (∀ c ∈ L, ∀ u, stc.ac.gotoT r c = some u →
        1 ≤ u ∧ u ∉ stc.qdata ∧ u ≠ r ∧ u ≠ f) →
      (∀ c ∈ L, ∀ c' ∈ L, ∀ u, stc.ac.gotoT r c = some u →
        stc.ac.gotoT r c' = some u → c = c') →
      (∀ c ∈ L, ∃ t, stc.ac.gotoT f c = some t ∧
        ∀ c' ∈ L, ∀ u, stc.ac.gotoT r c' = some u → t ≠ u) →
      ∃ st', L.foldlM (fun s c => bfsChar r s c) stc = some st' ∧
        st'.qhead = stc.qhead ∧
        st'.qdata = stc.qdata ++ L.filterMap (fun c => stc.ac.gotoT r c) ∧
        st'.ac.numStates = stc.ac.numStates ∧
        st'.ac.depth = stc.ac.depth ∧
        st'.ac.isFinal = stc.ac.isFinal ∧
        st'.ac.patternId = stc.ac.patternId ∧
        (∀ c ∈ L, ∀ s, stc.ac.gotoT r c = some s →
          st'.ac.gotoT r c = some s) ∧
        (∀ c ∈ L, stc.ac.gotoT r c = none →
          st'.ac.gotoT r c = stc.ac.gotoT f c) ∧
        (∀ u c, (u = r → c ∉ L) → st'.ac.gotoT u c = stc.ac.gotoT u c) ∧
        (∀ c ∈ L, ∀ s, stc.ac.gotoT r c = some s →
          ∃ t, stc.ac.gotoT f c = some t ∧ st'.ac.fail s = t ∧
            st'.ac.output s =
              (if stc.ac.isFinal t = true then (t : Int)
               else stc.ac.output t)) ∧
        (∀ u, (∀ c ∈ L, stc.ac.gotoT r c ≠ some u) →
          st'.ac.fail u = stc.ac.fail u ∧
            st'.ac.output u = stc.ac.output u) := by
  induction L with
  | nil =>
    intro _ stc f hf hrf _ _ _
    exact ⟨stc, rfl, rfl, by simp, rfl, rfl, rfl, rfl, by simp, by simp,
      fun _ _ _ => rfl, by simp, fun _ _ => ⟨rfl, rfl⟩⟩
  | cons c rest ih =>
    intro hnd stc f hf hrf hchild hinj hftot
    have hcrest : c ∉ rest := (List.nodup_cons.mp hnd).1
    have hndr : rest.Nodup := (List.nodup_cons.mp hnd).2
    obtain ⟨t, ht, htnc⟩ := hftot c (List.mem_cons_self c rest)
    cases hg : stc.ac.gotoT r c with
    | some s =>
      obtain ⟨hs1, hsq, hsr, hsf⟩ :=
        hchild c (List.mem_cons_self c rest) s hg
      obtain ⟨stc1, hstep, e1, e2, e3, e4, e5, e6, e7, e8, e9, e10, e11⟩ :
          ∃ stc1 : BuildSt, bfsChar r stc c = some stc1 ∧
            stc1.qhead = stc.qhead ∧
            stc1.qdata = stc.qdata ++ [s] ∧
            stc1.ac.gotoT = stc.ac.gotoT ∧
            stc1.ac.numStates = stc.ac.numStates ∧
            stc1.ac.depth = stc.ac.depth ∧
            stc1.ac.isFinal = stc.ac.isFinal ∧
            stc1.ac.patternId = stc.ac.patternId ∧
            stc1.ac.fail s = t ∧
            (∀ u, u ≠ s → stc1.ac.fail u = stc.ac.fail u) ∧
            stc1.ac.output s =
              (if stc.ac.isFinal t = true then (t : Int)
               else stc.ac.output t) ∧
            (∀ u, u ≠ s → stc1.ac.output u = stc.ac.output u) := by
        refine ⟨{ ac := { stc.ac with
                    fail := updF stc.ac.fail s t
                    output := updF stc.ac.output s
                      (if stc.ac.isFinal t = true then (t : Int)
                       else stc.ac.output t) }
                  qdata := stc.qdata ++ [s]
                  qhead := stc.qhead },
          by unfold bfsChar; rw [hg, hf, ht], rfl, rfl, rfl, rfl, rfl, rfl,
          rfl, by simp [updF], ?_, by simp [updF], ?_⟩
        · intro u hu
          simp [updF, hu]
        · intro u hu
          simp [updF, hu]
      obtain ⟨st', hfold, i1, i2, i3, i4, i5, i6, i7, i8, i9, i10, i11⟩ :=
        ih hndr stc1 f (by rw [e9 r hsr.symm]; exact hf) hrf
          (by
            intro c' hc' u hu
            rw [e3] at hu
            obtain ⟨h1, h2, h3, h4⟩ :=
              hchild c' (List.mem_cons_of_mem c hc') u hu
            refine ⟨h1, ?_, h3, h4⟩
            rw [e2]
            intro hmem
            rcases List.mem_append.mp hmem with hm | hm
            · exact h2 hm
            · have hus : u = s := by simpa using hm
              have hcc := hinj c' (List.mem_cons_of_mem c hc')
                c (List.mem_cons_self c rest) u hu (hus ▸ hg)
              exact hcrest (hcc ▸ hc'))
          (by
            intro c1 hc1 c2 hc2 u h1 h2
            rw [e3] at h1 h2
            exact hinj c1 (List.mem_cons_of_mem c hc1)
              c2 (List.mem_cons_of_mem c hc2) u h1 h2)
          (by
            intro c' hc'
            obtain ⟨t', ht', htnc'⟩ := hftot c' (List.mem_cons_of_mem c hc')
            refine ⟨t', by rw [e3]; exact ht', ?_⟩
            intro c2 hc2 u hu
            rw [e3] at hu
            exact htnc' c2 (List.mem_cons_of_mem c hc2) u hu)
      refine ⟨st', by rw [List.foldlM_cons, hstep]; exact hfold,
        i1.trans e1, ?_, i3.trans e4, i4.trans e5, i5.trans e6, i6.trans e7,
        ?_, ?_, ?_, ?_, ?_⟩
      · rw [i2, e2,
          List.filterMap_congr
            (fun c' (hc' : c' ∈ rest) => congrFun (congrFun e3 r) c')]
        simp [List.filterMap_cons, hg, List.append_assoc]
      · intro c' hc' s' hg'
        rcases List.mem_cons.mp hc' with rfl | hc'
        · rw [hg] at hg'
          cases hg'
          rw [i9 r c' (fun _ => hcrest), e3]
          exact hg
        · refine i7 c' hc' s' ?_
          rw [e3]
          exact hg'
      · intro c' hc' hg'
        rcases List.mem_cons.mp hc' with rfl | hc'
        · rw [hg] at hg'
          exact Option.noConfusion hg'
        · have h8 := i8 c' hc' (by rw [e3]; exact hg')
          rw [h8, e3]
      · intro u c' hno
        rw [i9 u c' (fun hur hmem => hno hur (List.mem_cons_of_mem c hmem)), e3]
      · intro c' hc' s' hg'
        rcases List.mem_cons.mp hc' with rfl | hc'
        · rw [hg] at hg'
          cases hg'
          have hsnc : ∀ c2 ∈ rest, stc1.ac.gotoT r c2 ≠ some s := by
            intro c2 hc2 hsc
            rw [e3] at hsc
            have hcc := hinj c' (List.mem_cons_self c' rest)
              c2 (List.mem_cons_of_mem c' hc2) s hg hsc
            exact hcrest (hcc ▸ hc2)
          have h11 := i11 s hsnc
          exact ⟨t, ht, h11.1.trans e8, h11.2.trans e10⟩
        · obtain ⟨t', ht', hfl, hout⟩ :=
            i10 c' hc' s' (by rw [e3]; exact hg')
          rw [e3] at ht'
          obtain ⟨t2, ht2, htnc2⟩ := hftot c' (List.mem_cons_of_mem c hc')
          have htt : t' = t2 := Option.some.inj (ht'.symm.trans ht2)
          have ht2s : t' ≠ s := by
            rw [htt]
            exact htnc2 c (List.mem_cons_self c rest) s hg
          refine ⟨t', ht', hfl, ?_⟩
          rw [hout, e6, e11 t' ht2s]
      · intro u hno
        have hus : u ≠ s := by
          intro h
          exact hno c (List.mem_cons_self c rest) (h ▸ hg)
        have h11 := i11 u (by
          intro c' hc' hu
          rw [e3] at hu
          exact hno c' (List.mem_cons_of_mem c hc') hu)
        exact ⟨h11.1.trans (e9 u hus), h11.2.trans (e11 u hus)⟩
    | none =>
      obtain ⟨stc1, hstep, e1, e2, e3, e4, e5, e6, e7, e8, e9, e10⟩ :
          ∃ stc1 : BuildSt, bfsChar r stc c = some stc1 ∧
            stc1.qhead = stc.qhead ∧
            stc1.qdata = stc.qdata ∧
            stc1.ac.numStates = stc.ac.numStates ∧
            stc1.ac.depth = stc.ac.depth ∧
            stc1.ac.isFinal = stc.ac.isFinal ∧
            stc1.ac.patternId = stc.ac.patternId ∧
            stc1.ac.fail = stc.ac.fail ∧
            stc1.ac.output = stc.ac.output ∧
            stc1.ac.gotoT r c = some t ∧
            (∀ u c', (u = r → c' ≠ c) →
              stc1.ac.gotoT u c' = stc.ac.gotoT u c') := by
        refine ⟨{ ac := { stc.ac with
                    gotoT := updG stc.ac.gotoT r c (some t) }
                  qdata := stc.qdata
                  qhead := stc.qhead },
          by unfold bfsChar; rw [hg, hf, ht], rfl, rfl, rfl, rfl, rfl, rfl,
          rfl, rfl, by simp [updG], ?_⟩
        intro u c' h
        show updG stc.ac.gotoT r c (some t) u c' = _
        simp only [updG]
        rw [if_neg]
        rintro ⟨h1, h2⟩
        exact h h1 h2
      have hfrow : ∀ c', stc1.ac.gotoT f c' = stc.ac.gotoT f c' :=
        fun c' => e10 f c' (fun h _ => hrf h.symm)
      have hrrow : ∀ c' ∈ rest, stc1.ac.gotoT r c' = stc.ac.gotoT r c' :=
        fun c' hc' => e10 r c' (fun _ hcc => hcrest (hcc ▸ hc'))
      obtain ⟨st', hfold, i1, i2, i3, i4, i5, i6, i7, i8, i9, i10, i11⟩ :=
        ih hndr stc1 f (by
            show stc1.ac.fail r = f
            rw [e7]
            exact hf) hrf
          (by
            intro c' hc' u hu
            rw [hrrow c' hc'] at hu
            obtain ⟨h1, h2, h3, h4⟩ :=
              hchild c' (List.mem_cons_of_mem c hc') u hu
            exact ⟨h1, by rw [e2]; exact h2, h3, h4⟩)
          (by
            intro c1 hc1 c2 hc2 u h1 h2
            rw [hrrow c1 hc1] at h1
            rw [hrrow c2 hc2] at h2
            exact hinj c1 (List.mem_cons_of_mem c hc1)
              c2 (List.mem_cons_of_mem c hc2) u h1 h2)
          (by
            intro c' hc'
            obtain ⟨t', ht', htnc'⟩ := hftot c' (List.mem_cons_of_mem c hc')
            refine ⟨t', by rw [hfrow c']; exact ht', ?_⟩
            intro c2 hc2 u hu
            rw [hrrow c2 hc2] at hu
            exact htnc' c2 (List.mem_cons_of_mem c hc2) u hu)
      refine ⟨st', by rw [List.foldlM_cons, hstep]; exact hfold,
        i1.trans e1, ?_, i3.trans e3, i4.trans e4, i5.trans e5, i6.trans e6,
        ?_, ?_, ?_, ?_, ?_⟩
      · rw [i2, e2, List.filterMap_cons, hg]
        congr 1
        exact List.filterMap_congr (fun c' hc' => hrrow c' hc')
      · intro c' hc' s' hg'
        rcases List.mem_cons.mp hc' with rfl | hc'
        · rw [hg] at hg'
          exact Option.noConfusion hg'
        · refine i7 c' hc' s' ?_
          rw [hrrow c' hc']
          exact hg'
      · intro c' hc' hg'
        rcases List.mem_cons.mp hc' with rfl | hc'
        · rw [i9 r c' (fun _ => hcrest), e9, ht]
        · have h8 := i8 c' hc' (by rw [hrrow c' hc']; exact hg')
          rw [h8, hfrow c']
      · intro u c' hno
        rw [i9 u c' (fun hur hmem => hno hur (List.mem_cons_of_mem c hmem))]
        exact e10 u c' (fun hur hcc =>
          hno hur (hcc ▸ List.mem_cons_self c rest))
      · intro c' hc' s' hg'
        rcases List.mem_cons.mp hc' with rfl | hc'
        · rw [hg] at hg'
          exact Option.noConfusion hg'
        · obtain ⟨t', ht', hfl, hout⟩ :=
            i10 c' hc' s' (by rw [hrrow c' hc']; exact hg')
          rw [hfrow c'] at ht'
          refine ⟨t', ht', hfl, ?_⟩
          rw [hout, e5, e8]
      · intro u hno
        have h11 := i11 u (by
          intro c' hc' hu
          rw [hrrow c' hc'] at hu
          exact hno c' (List.mem_cons_of_mem c hc') hu)
        rw [h11.1, h11.2, e7, e8]
        exact ⟨rfl, rfl⟩


theorem get?_lt_length {α : Type} (l : List α) (n : Nat) (a : α)
    (h : l.get? n = some a) : n < l.length := by
  rw [List.get?_eq_getElem?] at h
  exact (List.getElem?_eq_some_iff.mp h).1

/-- Popping one state from the queue preserves the BFS invariant. -/
theorem bfsState_inv (ac0 : ACAutomaton) (W : WFTrie ac0) (st : BuildSt)
    (hinv : BInv ac0 st) (r : Nat) (hr : st.qdata.get? st.qhead = some r) :
    ∃ st', bfsState { st with qhead := st.qhead + 1 } r = some st' ∧
      BInv ac0 st' ∧ st'.qhead = st.qhead + 1 ∧
      st.qdata.length ≤ st'.qdata.length := by
  have hrq : r ∈ st.qdata := List.get?_mem hr
  have hrange := hinv.mem_range r hrq
  have hhead : st.qhead < st.qdata.length := get?_lt_length _ _ _ hr
  have hncomp : ¬ Completed st r := by
    rintro (h0 | ⟨j, hj, hjr⟩)
    · omega
    · have hj2 : j = st.qhead :=
        List.get?_inj (get?_lt_length _ _ _ hjr) hinv.nodup (hjr.trans hr.symm)
      omega
  have hrow : ∀ c, st.ac.gotoT r c = ac0.gotoT r c :=
    hinv.unprocessed_row r hncomp
  set f := st.ac.fail r with hfdef
  have hfcomp : Completed st f := by
    rcases hinv.fail_earlier st.qhead r hr with h0 | ⟨j, hj, hjf⟩
    · exact Or.inl h0
    · exact Or.inr ⟨j, hj, hjf⟩
  have hfq : f = 0 ∨ f ∈ st.qdata := by
    rcases hfcomp with h0 | ⟨j, hj, hjf⟩
    · exact Or.inl h0
    · exact Or.inr (List.get?_mem hjf)
  have hrf : r ≠ f := by
    rcases hfcomp with h0 | ⟨j, hj, hjf⟩
    · omega
    · intro h
      have hj2 : j = st.qhead :=
        List.get?_inj (get?_lt_length _ _ _ hjf) hinv.nodup
          (hjf.trans (hr.trans (congrArg some h)).symm)
      omega
  have hchildq : ∀ c u, ac0.gotoT r c = some u → u ∉ st.qdata := by
    intro c u hu hmem
    obtain ⟨p, c', hpc', hpcomp⟩ := hinv.queued_parent u hmem
    have := W.parent_unique p c' r c u hpc' hu
    exact hncomp (this.1 ▸ hpcomp)
  obtain ⟨st', hfold, i1, i2, i3, i4, i5, i6, i7, i8, i9, i10, i11⟩ :=
    bfsChars r (List.finRange 256) (List.nodup_finRange 256)
      { st with qhead := st.qhead + 1 } f hfdef.symm hrf
      (by
        intro c _ u hu
        have hu0 : ac0.gotoT r c = some u := by rw [← hrow c]; exact hu
        have hent := W.entries r c u hu0
        refine ⟨hent.1, hchildq c u hu0, by omega, ?_⟩
        intro huf
        rcases hfq with h0 | hmem
        · omega
        · exact hchildq c u hu0 (huf ▸ hmem))
      (by
        intro c1 _ c2 _ u h1 h2
        exact (W.parent_unique r c1 r c2 u
          (by rw [← hrow c1]; exact h1) (by rw [← hrow c2]; exact h2)).2)
      (by
        intro c _
        obtain ⟨t, hgt, htlt, ht0q, htdep⟩ := hinv.completed_row f hfcomp c
        refine ⟨t, hgt, ?_⟩
        intro c' _ u hu
        have hu0 : ac0.gotoT r c' = some u := by rw [← hrow c']; exact hu
        have hent := W.entries r c' u hu0
        intro htu
        rcases ht0q with h0 | hmem
        · omega
        · exact hchildq c' u hu0 (htu ▸ hmem))
  dsimp only at hfold i1 i2 i3 i4 i5 i6 i7 i8 i9 i10 i11
  have hq' : st'.qdata =
      st.qdata ++ (List.finRange 256).filterMap (fun c => ac0.gotoT r c) := by
    rw [i2]
    exact congrArg (st.qdata ++ ·)
      (List.filterMap_congr (fun c _ => hrow c))
  have hch : ∀ u, u ∈ (List.finRange 256).filterMap (fun c => ac0.gotoT r c) ↔
      ∃ c, ac0.gotoT r c = some u := by
    intro u
    simp only [List.mem_filterMap]
    exact ⟨fun ⟨c, _, h⟩ => ⟨c, h⟩, fun ⟨c, h⟩ => ⟨c, List.mem_finRange c, h⟩⟩
  have hmem' : ∀ u, u ∈ st'.qdata ↔
      u ∈ st.qdata ∨ ∃ c, ac0.gotoT r c = some u := by
    intro u
    rw [hq', List.mem_append, hch]
  have hcompl' : ∀ u, Completed st' u ↔ Completed st u ∨ u = r := by
    intro u
    constructor
    · rintro (h0 | ⟨j, hj, hju⟩)
      · exact Or.inl (Or.inl h0)
      · rw [i1] at hj
        have hjlen : j < st.qdata.length := by omega
        rw [hq', List.get?_append hjlen] at hju
        by_cases hje : j = st.qhead
        · subst hje
          exact Or.inr (Option.some.inj (hr.symm.trans hju)).symm
        · exact Or.inl (Or.inr ⟨j, by omega, hju⟩)
    · rintro ((h0 | ⟨j, hj, hju⟩) | rfl)
      · exact Or.inl h0
      · refine Or.inr ⟨j, by rw [i1]; omega, ?_⟩
        rw [hq', List.get?_append (get?_lt_length _ _ _ hju)]
        exact hju
      · refine Or.inr ⟨st.qhead, by rw [i1]; omega, ?_⟩
        rw [hq', List.get?_append hhead]
        exact hr
  have hnc_old : ∀ u, u ∉ (List.finRange 256).filterMap
      (fun c => ac0.gotoT r c) →
      ∀ c ∈ List.finRange 256, st.ac.gotoT r c ≠ some u := by
    intro u hu c hc hgc
    rw [hrow c] at hgc
    exact hu ((hch u).mpr ⟨c, hgc⟩)
  have hold_keep : ∀ u, u ∈ st.qdata →
      ∀ c ∈ List.finRange 256, st.ac.gotoT r c ≠ some u := by
    intro u hu c _ hgc
    rw [hrow c] at hgc
    exact hchildq c u hgc hu
  refine ⟨st', hfold, ⟨?_, ?_, ?_, i3.trans hinv.ns_eq, i4.trans hinv.depth_eq,
    i5.trans hinv.final_eq, i6.trans hinv.pid_eq, ?_, ?_, ?_, ?_, ?_, ?_, ?_,
    ?_, ?_, ?_⟩, i1, by rw [hq']; simp⟩
  · rw [hq']
    refine List.Nodup.append hinv.nodup ?_ ?_
    · exact List.Nodup.filterMap
        (fun a a' b hb hb' =>
          (W.parent_unique r a r a' b (Option.mem_def.mp hb)
            (Option.mem_def.mp hb')).2)
        (List.nodup_finRange 256)
    · intro u hu hu2
      rcases (hch u).mp hu2 with ⟨c, hc⟩
      exact hchildq c u hc hu
  · intro u hu
    rcases (hmem' u).mp hu with h | ⟨c, hc⟩
    · exact hinv.mem_range u h
    · have := W.entries r c u hc
      exact ⟨this.1, this.2.1⟩
  · rw [i1, hq']
    simp only [List.length_append]
    omega
  · intro p c u h
    by_cases hp : p = r
    · subst hp
      rw [i7 c (List.mem_finRange c) u (by rw [hrow c]; exact h)]
    · rw [i9 p c (fun h' => absurd h' hp)]
      exact hinv.orig_pres p c u h
  · intro c
    rw [i9 0 c (fun h' => absurd h' (by omega))]
    exact hinv.root_row c
  · intro u hu c
    rcases (hcompl' u).mp hu with hold | rfl
    · have hur : u ≠ r := fun h => hncomp (h ▸ hold)
      rw [i9 u c (fun h' => absurd h' hur)]
      obtain ⟨t, h1, h2, h3, h4⟩ := hinv.completed_row u hold c
      refine ⟨t, h1, h2, ?_, h4⟩
      rcases h3 with h0 | hmem
      · exact Or.inl h0
      · exact Or.inr ((hmem' t).mpr (Or.inl hmem))
    · cases horig : ac0.gotoT u c with
      | some s =>
        rw [i7 c (List.mem_finRange c) s (by rw [hrow c]; exact horig)]
        have hent := W.entries u c s horig
        refine ⟨s, rfl, hent.2.1, Or.inr ((hmem' s).mpr (Or.inr ⟨c, horig⟩)),
          ?_⟩
        rw [W.depth_edge u c s horig]
      | none =>
        have h8 := i8 c (List.mem_finRange c) (by rw [hrow c]; exact horig)
        obtain ⟨t, h1, h2, h3, h4⟩ := hinv.completed_row f hfcomp c
        have hfd := hinv.fail_depth u hrq
        rw [← hfdef] at hfd
        refine ⟨t, by rw [h8]; exact h1, h2, ?_, by omega⟩
        rcases h3 with h0 | hmem
        · exact Or.inl h0
        · exact Or.inr ((hmem' t).mpr (Or.inl hmem))
  · intro u hu c
    have hur : u ≠ r := fun h => hu ((hcompl' u).mpr (Or.inr h))
    have hold : ¬ Completed st u := fun h => hu ((hcompl' u).mpr (Or.inl h))
    rw [i9 u c (fun h' => absurd h' hur)]
    exact hinv.unprocessed_row u hold c
  · intro i u hget
    by_cases hilen : i < st.qdata.length
    · rw [hq', List.get?_append hilen] at hget
      have humem : u ∈ st.qdata := List.get?_mem hget
      have hkeep := i11 u (hold_keep u humem)
      rw [hkeep.1]
      rcases hinv.fail_earlier i u hget with h0 | ⟨j, hj, hjget⟩
      · exact Or.inl h0
      · refine Or.inr ⟨j, hj, ?_⟩
        rw [hq', List.get?_append (get?_lt_length _ _ _ hjget)]
        exact hjget
    · push_neg at hilen
      rw [hq', List.get?_append_right hilen] at hget
      have humem : u ∈ (List.finRange 256).filterMap
          (fun c => ac0.gotoT r c) := List.get?_mem hget
      rcases (hch u).mp humem with ⟨c, hc⟩
      obtain ⟨t, hgt, hfl, hout⟩ := i10 c (List.mem_finRange c) u
        (by rw [hrow c]; exact hc)
      obtain ⟨t2, hgt2, h2, h3, h4⟩ := hinv.completed_row f hfcomp c
      have htt : t = t2 := Option.some.inj (hgt.symm.trans hgt2)
      subst htt
      rw [hfl]
      rcases h3 with h0 | hmem
      · exact Or.inl h0
      · rcases List.mem_iff_get?.mp hmem with ⟨j, hj⟩
        have hjlen := get?_lt_length _ _ _ hj
        refine Or.inr ⟨j, by omega, ?_⟩
        rw [hq', List.get?_append hjlen]
        exact hj
  · intro u hu
    rcases (hmem' u).mp hu with hold | ⟨c, hc⟩
    · have hkeep := i11 u (hold_keep u hold)
      rw [hkeep.1]
      exact hinv.fail_depth u hold
    · obtain ⟨t, hgt, hfl, hout⟩ := i10 c (List.mem_finRange c) u
        (by rw [hrow c]; exact hc)
      obtain ⟨t2, hgt2, h2, h3, h4⟩ := hinv.completed_row f hfcomp c
      have htt : t = t2 := Option.some.inj (hgt.symm.trans hgt2)
      subst htt
      rw [hfl]
      have hfd := hinv.fail_depth r hrq
      rw [← hfdef] at hfd
      rw [W.depth_edge r c u hc]
      omega
  · intro u hu
    rcases (hmem' u).mp hu with hold | ⟨c, hc⟩
    · have hkeep := i11 u (hold_keep u hold)
      rcases hinv.output_q u hold with h | ⟨v, hv1, hv2, hv3, hv4, hv5⟩
      · exact Or.inl (hkeep.2.trans h)
      · exact Or.inr ⟨v, hkeep.2.trans hv1, hv2, hv3, hv4, hv5⟩
    · obtain ⟨t, hgt, hfl, hout⟩ := i10 c (List.mem_finRange c) u
        (by rw [hrow c]; exact hc)
      obtain ⟨t2, hgt2, h2, h3, h4⟩ := hinv.completed_row f hfcomp c
      have htt : t = t2 := Option.some.inj (hgt.symm.trans hgt2)
      subst htt
      have hdu : ac0.depth u = ac0.depth r + 1 := W.depth_edge r c u hc
      have hfd := hinv.fail_depth r hrq
      rw [← hfdef] at hfd
      rw [hinv.final_eq] at hout
      by_cases hft : ac0.isFinal t = true
      · rw [if_pos hft] at hout
        have hrnf := W.root_not_final t hft
        exact Or.inr ⟨t, hout, hrnf.1, hrnf.2, hft, by omega⟩
      · rw [if_neg hft] at hout
        rcases h3 with h0 | hmem
        · subst h0
          rw [hinv.output_rest 0
            (fun h => by have := (hinv.mem_range 0 h).1; omega)] at hout
          exact Or.inl hout
        · rcases hinv.output_q t hmem with h | ⟨v, hv1, hv2, hv3, hv4, hv5⟩
          · exact Or.inl (hout.trans h)
          · exact Or.inr ⟨v, hout.trans hv1, hv2, hv3, hv4, by omega⟩
  · intro u hu
    have hu1 : u ∉ st.qdata := fun h => hu ((hmem' u).mpr (Or.inl h))
    have hu2 : u ∉ (List.finRange 256).filterMap (fun c => ac0.gotoT r c) :=
      fun h => hu ((hmem' u).mpr (Or.inr ((hch u).mp h)))
    have hkeep := i11 u (hnc_old u hu2)
    rw [hkeep.2]
    exact hinv.output_rest u hu1
  · intro u hu
    rcases (hmem' u).mp hu with hold | ⟨c, hc⟩
    · obtain ⟨p, c, hpc, hpcomp⟩ := hinv.queued_parent u hold
      exact ⟨p, c, hpc, (hcompl' p).mpr (Or.inl hpcomp)⟩
    · exact ⟨r, c, hc, (hcompl' r).mpr (Or.inr rfl)⟩
  · intro u h1 h2
    rcases hinv.all_reached u h1 h2 with hold | ⟨p, c, hpc, hnp⟩
    · exact Or.inl ((hmem' u).mpr (Or.inl hold))
    · by_cases hp : p = r
      · subst hp
        exact Or.inl ((hmem' u).mpr (Or.inr ⟨c, hpc⟩))
      · refine Or.inr ⟨p, c, hpc, ?_⟩
        intro h
        rcases (hcompl' p).mp h with h | h
        · exact hnp h
        · exact hp h

/-- A duplicate-free queue of states in `[1, numStates)` cannot exceed
`numStates - 1` entries. -/
theorem qdata_len_bound (ac0 : ACAutomaton) (st : BuildSt)
    (hinv : BInv ac0 st) : st.qdata.length ≤ ac0.numStates - 1 := by
  have h1 : st.qdata.toFinset.card = st.qdata.length :=
    List.toFinset_card_of_nodup hinv.nodup
  have h2 : st.qdata.toFinset ⊆ Finset.Ico 1 ac0.numStates := by
    intro u hu
    rw [List.mem_toFinset] at hu
    have := hinv.mem_range u hu
    rw [Finset.mem_Ico]
    omega
  have h3 := Finset.card_le_card h2
  rw [h1, Nat.card_Ico] at h3
  exact h3

/-- The BFS loop terminates successfully with the invariant, given fuel
for the remaining queue (`numStates` from the start always suffices). -/
theorem bfsLoop_inv (ac0 : ACAutomaton) (W : WFTrie ac0) : ∀ (fuel : Nat)
    (st : BuildSt), BInv ac0 st → ac0.numStates ≤ fuel + st.qhead + 1 →
    ∃ st', bfsLoop fuel st = some st' ∧ BInv ac0 st' ∧
      st'.qdata.length ≤ st'.qhead := by
  intro fuel
  induction fuel with
  | zero =>
    intro st hinv hfuel
    have hlen := qdata_len_bound ac0 st hinv
    have hle : st.qdata.length ≤ st.qhead := by omega
    exact ⟨st, by unfold bfsLoop; rw [if_pos hle], hinv, hle⟩
  | succ n ih =>
    intro st hinv hfuel
    cases hget : st.qdata.get? st.qhead with
    | none =>
      exact ⟨st, by unfold bfsLoop; rw [hget], hinv,
        List.get?_eq_none.mp hget⟩
    | some r =>
      obtain ⟨st1, hstep, hinv1, hh1, hl1⟩ := bfsState_inv ac0 W st hinv r hget
      obtain ⟨st', hloop, hinv', hdone⟩ := ih st1 hinv1 (by omega)
      refine ⟨st', ?_, hinv', hdone⟩
      unfold bfsLoop
      rw [hget]
      dsimp only
      rw [hstep]
      exact hloop

/-- Master theorem for `ac_build` on a well-formed trie within the
`int16` bound: the build succeeds and the result is a total DFA over the
trie states that preserves trie edges, completes the root row with root
fallbacks, steps depth by at most one, has well-founded output links
into shallower final states, and materialises exactly the representation
selected by `force_flat`. -/
theorem ac_build_facts (ac0 : ACAutomaton) (W : WFTrie ac0)
    (hb : ac0.built = false) (hn : ac0.numStates ≤ 32767) :
    ∃ ac', ac_build ac0 = some ac' ∧
      ac'.numStates = ac0.numStates ∧
      ac'.depth = ac0.depth ∧
      ac'.isFinal = ac0.isFinal ∧
      ac'.patternId = ac0.patternId ∧
      ac'.built = true ∧
      (∀ p c u, ac0.gotoT p c = some u → ac'.gotoT p c = some u) ∧
      (∀ c, ac'.gotoT 0 c = some ((ac0.gotoT 0 c).getD 0)) ∧
      (∀ s, s < ac0.numStates → ∀ c, ∃ t, ac'.gotoT s c = some t ∧
        t < ac0.numStates ∧ ac0.depth t ≤ ac0.depth s + 1) ∧
      (∀ s, ac'.output s = -1 ∨ ∃ v : Nat, ac'.output s = (v : Int) ∧
        1 ≤ v ∧ v < ac0.numStates ∧ ac0.isFinal v = true ∧
        ac0.depth v < ac0.depth s) ∧
      (ac0.forceFlat = true →
        ac'.dfa = some (flatRow ac'.gotoT) ∧ ac'.rootRow = none ∧
        ac'.compressed = none) ∧
      (ac0.forceFlat = false →
        ac'.dfa = none ∧ ac'.rootRow = some (flatRow ac'.gotoT 0) ∧
        ac'.compressed = some (fun s => buildCompRow (flatRow ac'.gotoT s))) := by
  have hq0 : (rootComplete ac0).qhead = 0 :=
    (rootChars (List.finRange 256) (List.nodup_finRange 256)
      { ac := ac0, qdata := [], qhead := 0 }).1
  obtain ⟨stF, hloop, hinv, hdone⟩ :=
    bfsLoop_inv ac0 W ac0.numStates (rootComplete ac0)
      (rootComplete_inv ac0 W) (by rw [hq0]; omega)
  have hall : ∀ u, u < ac0.numStates → Completed stF u := by
    intro u
    induction u using Nat.strong_induction_on with
    | _ u ih2 =>
      intro hu
      by_cases h0 : u = 0
      · exact Or.inl h0
      · have h1 : 1 ≤ u := by omega
        rcases hinv.all_reached u h1 hu with hmem | ⟨p, c, hpc, hnp⟩
        · rcases List.mem_iff_get?.mp hmem with ⟨j, hj⟩
          have := get?_lt_length _ _ _ hj
          exact Or.inr ⟨j, by omega, hj⟩
        · have hpu := W.entries p c u hpc
          exact absurd (ih2 p (by omega) (by omega)) hnp
  have hpres : SamePres stF.ac ac0 :=
    samePres_trans (bfsLoop_pres ac0.numStates (rootComplete ac0) stF hloop)
      (rootComplete_pres ac0)
  unfold ac_build
  rw [hb]
  simp only [Bool.false_eq_true, if_false]
  rw [hloop]
  dsimp only
  rw [hinv.ns_eq, if_neg (by omega)]
  have hrowsF : ∀ s, s < ac0.numStates → ∀ c, ∃ t, stF.ac.gotoT s c = some t ∧
      t < ac0.numStates ∧ ac0.depth t ≤ ac0.depth s + 1 := by
    intro s hs c
    obtain ⟨t, h1, h2, h3, h4⟩ := hinv.completed_row s (hall s hs) c
    exact ⟨t, h1, h2, h4⟩
  have houtF : ∀ s, stF.ac.output s = -1 ∨ ∃ v : Nat,
      stF.ac.output s = (v : Int) ∧ 1 ≤ v ∧ v < ac0.numStates ∧
      ac0.isFinal v = true ∧ ac0.depth v < ac0.depth s := by
    intro s
    by_cases hmem : s ∈ stF.qdata
    · exact hinv.output_q s hmem
    · exact Or.inl (hinv.output_rest s hmem)
  have hff : stF.ac.forceFlat = ac0.forceFlat := hpres.2.2.2.2.1
  cases hffv : ac0.forceFlat with
  | true =>
    rw [hff, hffv]
    simp only [if_true]
    refine ⟨_, rfl, rfl, hinv.depth_eq, hinv.final_eq, hinv.pid_eq,
      rfl, hinv.orig_pres, hinv.root_row, hrowsF, houtF,
      fun _ => ⟨rfl, rfl, rfl⟩, fun h => absurd h (by simp)⟩
  | false =>
    rw [hff, hffv]
    simp only [Bool.false_eq_true, if_false]
    refine ⟨_, rfl, rfl, hinv.depth_eq, hinv.final_eq, hinv.pid_eq,
      rfl, hinv.orig_pres, hinv.root_row, hrowsF, houtF,
      fun h => absurd h (by simp), fun _ => ⟨rfl, rfl, rfl⟩⟩

/-- `forceFlat` does not affect trie well-formedness. -/
theorem wfTrie_force_flat (ac : ACAutomaton) (h : WFTrie ac) :
    WFTrie (ac_set_force_flat ac) :=
  ⟨h.one_le, h.entries, h.hi_none, h.parent_exists, h.parent_unique,
    h.depth_edge, h.depth_root, h.root_not_final, h.output_init⟩

/-- A successful build implies the `int16` state bound was respected. -/
theorem ac_build_bound (ac0 ac' : ACAutomaton)
    (hb : ac0.built = false) (h : ac_build ac0 = some ac') :
    ac0.numStates ≤ 32767 := by
  unfold ac_build at h
  rw [hb] at h
  simp only [Bool.false_eq_true, if_false] at h
  cases hres : bfsLoop ac0.numStates (rootComplete ac0) with
  | none =>
    rw [hres] at h
    exact Option.noConfusion h
  | some st =>
    rw [hres] at h
    dsimp only at h
    have hpres := samePres_trans
      (bfsLoop_pres ac0.numStates (rootComplete ac0) st hres)
      (rootComplete_pres ac0)
    by_cases h32 : 32767 < st.ac.numStates
    · rw [if_pos h32] at h
      exact Option.noConfusion h
    · rw [hpres.1] at h32
      omega

/-! ## Search-time facts of a built automaton -/

/-- Everything the search loops rely on in a built automaton: total
in-range transitions growing depth by at most one, a depth-0 root with
positive depth elsewhere, final states off the root, output links into
strictly shallower final states, and an `acNext` dispatch that agrees
with the flat row everywhere. -/
structure SearchFacts (ac : ACAutomaton) : Prop where
  one_le : 1 ≤ ac.numStates
  depth_root : ac.depth 0 = 0
  next_total : ∀ s, s < ac.numStates → ∀ c, ∃ t, ac.gotoT s c = some t ∧
      t < ac.numStates ∧ ac.depth t ≤ ac.depth s + 1
  depth_pos : ∀ u, 1 ≤ u → u < ac.numStates → 1 ≤ ac.depth u
  final_range : ∀ u, ac.isFinal u = true → 1 ≤ u ∧ u < ac.numStates
  output_ok : ∀ s, ac.output s = -1 ∨ ∃ v : Nat, ac.output s = (v : Int) ∧
      1 ≤ v ∧ v < ac.numStates ∧ ac.isFinal v = true ∧
      ac.depth v < ac.depth s
  next_repr : ∀ next, acNext ac = some next → ∀ st c, st < ac.numStates →
      next st c = flatRow ac.gotoT st c

/-- Any automaton built by `ac_build` from a well-formed trie satisfies
the search-time facts. -/
theorem ac_build_search_facts (ac0 ac' : ACAutomaton) (W : WFTrie ac0)
    (hb : ac0.built = false) (h : ac_build ac0 = some ac') :
    SearchFacts ac' := by
  have hn := ac_build_bound ac0 ac' hb h
  obtain ⟨ac2, h2, f1, f2, f3, f4, f5, f6, f7, f8, f9, f10, f11⟩ :=
    ac_build_facts ac0 W hb hn
  have hee : ac2 = ac' := Option.some.inj (h2.symm.trans h)
  subst hee
  have hdpos : ∀ u, 1 ≤ u → u < ac0.numStates → 1 ≤ ac0.depth u := by
    intro u h1 h2
    obtain ⟨p, c, hpc⟩ := W.parent_exists u h1 h2
    rw [W.depth_edge p c u hpc]
    omega
  refine ⟨by rw [f1]; exact W.one_le, by rw [f2]; exact W.depth_root,
    ?_, ?_, ?_, ?_, ?_⟩
  · intro s hs c
    rw [f1] at hs
    obtain ⟨t, h1, h2, h3⟩ := f8 s hs c
    exact ⟨t, h1, by rw [f1]; exact h2, by rw [f2]; exact h3⟩
  · intro u h1 h2
    rw [f1] at h2
    rw [f2]
    exact hdpos u h1 h2
  · intro u hu
    rw [f3] at hu
    have := W.root_not_final u hu
    rw [f1]
    omega
  · intro s
    rcases f9 s with h1 | ⟨v, hv1, hv2, hv3, hv4, hv5⟩
    · exact Or.inl h1
    · exact Or.inr ⟨v, hv1, hv2, by rw [f1]; exact hv3, by rw [f3]; exact hv4,
        by rw [f2]; exact hv5⟩
  · intro next hnext st c hst
    cases hffv : ac0.forceFlat with
    | true =>
      obtain ⟨hd, _, _⟩ := f10 hffv
      unfold acNext at hnext
      rw [hd] at hnext
      dsimp only at hnext
      cases hnext
      rfl
    | false =>
      obtain ⟨hd, hroot, hcomp⟩ := f11 hffv
      unfold acNext at hnext
      rw [hd, hroot, hcomp] at hnext
      dsimp only at hnext
      cases hnext
      dsimp only
      by_cases h0 : st = 0
      · subst h0
        rw [if_pos rfl]
      · rw [if_neg h0]
        exact compressed_lookup_buildCompRow _ (flatRow ac2.gotoT st) st rfl c

/-- Any state invariant preserved by in-bounds emissions is preserved by
the output-chain walk (emissions at position `i` have length in
`[1, D]`). -/
theorem matchChain_bound {σ : Type} (ac : ACAutomaton) (F : SearchFacts ac)
    (cb : ACMatch → σ → Bool × σ) (P : σ → Prop) (i D : Nat)
    (hcb : ∀ m s, P s → 1 ≤ m.length → m.length ≤ D → m.position = i →
      P (cb m s).2) :
    ∀ (fuel : Nat) (ms : Int) (s : σ), P s →
      (ms = -1 ∨ ∃ w : Nat, ms = (w : Int) ∧ w < ac.numStates ∧
        ac.depth w ≤ D) →
      P (matchChain ac cb i fuel ms s).2 := by
  intro fuel
  induction fuel with
  | zero =>
    intro ms s hP _
    exact hP
  | succ n ih =>
    intro ms s hP hms
    unfold matchChain
    rcases hms with rfl | ⟨w, rfl, hw, hd⟩
    · rw [if_neg (by norm_num)]
      exact hP
    · by_cases hw0 : 0 < w
      · rw [if_pos (by exact_mod_cast hw0)]
        dsimp only
        rw [Int.toNat_natCast]
        have hmsnext : ac.output w = -1 ∨ ∃ v : Nat,
            ac.output w = (v : Int) ∧ v < ac.numStates ∧ ac.depth v ≤ D := by
          rcases F.output_ok w with h | ⟨v, h1, h2, h3, h4, h5⟩
          · exact Or.inl h
          · exact Or.inr ⟨v, h1, h3, by omega⟩
        by_cases hf : ac.isFinal w = true
        · rw [if_pos hf]
          have hlen1 : 1 ≤ ac.depth w :=
            F.depth_pos w (F.final_range w hf).1 hw
          have hPc := hcb ⟨i, ac.patternId w, ac.depth w⟩ s hP hlen1 hd rfl
          cases hcbv : cb ⟨i, ac.patternId w, ac.depth w⟩ s with
          | mk flag s1 =>
            rw [hcbv] at hPc
            cases flag with
            | true => exact ih (ac.output w) s1 hPc hmsnext
            | false => exact hPc
        · rw [if_neg hf]
          exact ih (ac.output w) s hP hmsnext
      · rw [if_neg (by simpa using hw0)]
        exact hP

/-- The byte loop preserves any invariant preserved by in-bounds
emissions, tracking `depth state ≤ i`. -/
theorem searchLoop_bound {σ : Type} (ac : ACAutomaton) (F : SearchFacts ac)
    (next : Nat → Byte → Nat)
    (hgn : ∀ st c, st < ac.numStates →
      next st c < ac.numStates ∧ ac.depth (next st c) ≤ ac.depth st + 1)
    (cb : ACMatch → σ → Bool × σ) (P : σ → Prop) (L : Nat)
    (hcb : ∀ m s, P s → 1 ≤ m.length → m.length ≤ m.position + 1 →
      m.position < L → P (cb m s).2) :
    ∀ (chunk : List Byte) (i state : Nat) (s : σ), P s →
      state < ac.numStates → ac.depth state ≤ i → i + chunk.length ≤ L →
      P (searchLoop ac next cb chunk i state s) := by
  intro chunk
  induction chunk with
  | nil =>
    intro i state s hP _ _ _
    exact hP
  | cons c rest ih =>
    intro i state s hP hst hdep hlen
    unfold searchLoop
    dsimp only
    have hg := hgn state c hst
    simp only [List.length_cons] at hlen
    have hchain := matchChain_bound ac F cb P i (i + 1)
      (fun m s hPs h1 h2 h3 => hcb m s hPs h1 (by omega) (by omega))
      ac.numStates (Int.ofNat (next state c)) s hP
      (Or.inr ⟨next state c, rfl, hg.1, by omega⟩)
    cases hmc : matchChain ac cb i ac.numStates (Int.ofNat (next state c)) s
      with
    | mk flag s1 =>
      rw [hmc] at hchain
      cases flag with
      | true =>
        exact ih (i + 1) (next state c) s1 hchain hg.1 (by omega) (by omega)
      | false => exact hchain

/-- `acNext` of an automaton with the search facts steps within range
and grows depth by at most one. -/
theorem acNext_good (ac : ACAutomaton) (F : SearchFacts ac)
    (next : Nat → Byte → Nat) (hnext : acNext ac = some next) :
    ∀ st c, st < ac.numStates →
      next st c < ac.numStates ∧ ac.depth (next st c) ≤ ac.depth st + 1 := by
  intro st c hst
  rw [F.next_repr next hnext st c hst]
  obtain ⟨t, h1, h2, h3⟩ := F.next_total st hst c
  unfold flatRow
  rw [h1]
  exact ⟨h2, h3⟩

/-- The callback search preserves any invariant preserved by in-bounds
emissions. -/
theorem ac_search_bound {σ : Type} (ac : ACAutomaton) (F : SearchFacts ac)
    (text : List Byte) (cb : ACMatch → σ → Bool × σ) (s0 : σ) (P : σ → Prop)
    (hP0 : P s0)
    (hcb : ∀ m s, P s → 1 ≤ m.length → m.length ≤ m.position + 1 →
      m.position < text.length → P (cb m s).2) :
    P (ac_search ac text cb s0) := by
  unfold ac_search
  split
  · exact hP0
  · cases hnext : acNext ac with
    | none => exact hP0
    | some next =>
      exact searchLoop_bound ac F next (acNext_good ac F next hnext) cb P
        text.length hcb text 0 0 s0 hP0 F.one_le (by rw [F.depth_root])
        (by omega)

/-- Bounds on a match returned by the output-chain walk of
`ac_search_first`. -/
theorem firstChain_bound (ac : ACAutomaton) (F : SearchFacts ac) (i D : Nat) :
    ∀ (fuel : Nat) (ms : Int),
      (ms = -1 ∨ ∃ w : Nat, ms = (w : Int) ∧ w < ac.numStates ∧
        ac.depth w ≤ D) →
      ∀ m, firstChain ac i fuel ms = some m →
        1 ≤ m.length ∧ m.length ≤ D ∧ m.position = i := by
  intro fuel
  induction fuel with
  | zero =>
    intro ms _ m h
    exact Option.noConfusion h
  | succ n ih =>
    intro ms hms m h
    unfold firstChain at h
    rcases hms with rfl | ⟨w, rfl, hw, hd⟩
    · rw [if_neg (by norm_num)] at h
      exact Option.noConfusion h
    · by_cases hw0 : 0 < w
      · rw [if_pos (by exact_mod_cast hw0)] at h
        dsimp only at h
        rw [Int.toNat_natCast] at h
        by_cases hf : ac.isFinal w = true
        · rw [if_pos hf] at h
          cases h
          exact ⟨F.depth_pos w (F.final_range w hf).1 hw, hd, rfl⟩
        · rw [if_neg hf] at h
          refine ih (ac.output w) ?_ m h
          rcases F.output_ok w with h1 | ⟨v, h1, h2, h3, h4, h5⟩
          · exact Or.inl h1
          · exact Or.inr ⟨v, h1, h3, by omega⟩
      · rw [if_neg (by simpa using hw0)] at h
        exact Option.noConfusion h

/-- Bounds on a match returned by the byte loop of `ac_search_first`. -/
theorem firstLoop_bound (ac : ACAutomaton) (F : SearchFacts ac)
    (next : Nat → Byte → Nat)
    (hgn : ∀ st c, st < ac.numStates →
      next st c < ac.numStates ∧ ac.depth (next st c) ≤ ac.depth st + 1)
    (L : Nat) :
    ∀ (chunk : List Byte) (i state : Nat), state < ac.numStates →
      ac.depth state ≤ i → i + chunk.length ≤ L →
      ∀ m, firstLoop ac next chunk i state = some m →
        1 ≤ m.length ∧ m.length ≤ m.position + 1 ∧ m.position < L := by
  intro chunk
  induction chunk with
  | nil =>
    intro i state _ _ _ m h
    exact Option.noConfusion h
  | cons c rest ih =>
    intro i state hst hdep hlen m h
    unfold firstLoop at h
    dsimp only at h
    have hg := hgn state c hst
    simp only [List.length_cons] at hlen
    cases hfc : firstChain ac i ac.numStates (Int.ofNat (next state c)) with
    | some m1 =>
      rw [hfc] at h
      dsimp only at h
      cases h
      have hb := firstChain_bound ac F i (i + 1) ac.numStates
        (Int.ofNat (next state c))
        (Or.inr ⟨next state c, rfl, hg.1, by omega⟩) m hfc
      exact ⟨hb.1, by omega, by omega⟩
    | none =>
      rw [hfc] at h
      dsimp only at h
      exact ih (i + 1) (next state c) hg.1 (by omega) (by omega) m h

/-- Reachability from the root through the transition table. -/
def ACReach (ac : ACAutomaton) (u : Nat) : Prop :=
  Relation.ReflTransGen (fun a b => ∃ c : Byte, ac.gotoT a c = some b) 0 u

/-- In a built automaton every in-range state is reachable from the
root (the trie edges are preserved by the build). -/
theorem ac_build_reach (ac0 ac' : ACAutomaton) (W : WFTrie ac0)
    (hb : ac0.built = false) (h : ac_build ac0 = some ac') :
    ∀ u, u < ac'.numStates → ACReach ac' u := by
  have hn := ac_build_bound ac0 ac' hb h
  obtain ⟨ac2, h2, f1, f2, f3, f4, f5, f6, f7, f8, f9, f10, f11⟩ :=
    ac_build_facts ac0 W hb hn
  have hee : ac2 = ac' := Option.some.inj (h2.symm.trans h)
  subst hee
  intro u
  induction u using Nat.strong_induction_on with
  | _ u ih =>
    intro hu
    rw [f1] at hu
    by_cases h0 : u = 0
    · subst h0
      exact Relation.ReflTransGen.refl
    · obtain ⟨p, c, hpc⟩ := W.parent_exists u (by omega) hu
      have hent := W.entries p c u hpc
      exact Relation.ReflTransGen.tail
        (ih p (by omega) (by rw [f1]; omega)) ⟨c, f6 p c u hpc⟩

/-- Totality and closure of the completed table of any built automaton. -/
theorem ac_build_total_closed (ac0 ac' : ACAutomaton) (W : WFTrie ac0)
    (hb : ac0.built = false) (h : ac_build ac0 = some ac') :
    ∀ s, s < ac'.numStates → ∀ c : Byte,
      ∃ t, ac'.gotoT s c = some t ∧ t < ac'.numStates ∧ ACReach ac' t := by
  have F := ac_build_search_facts ac0 ac' W hb h
  have hreach := ac_build_reach ac0 ac' W hb h
  intro s hs c
  obtain ⟨t, h1, h2, h3⟩ := F.next_total s hs c
  exact ⟨t, h1, h2, hreach t h2⟩

/-- **C3.** For every automaton on which the build has succeeded (from
any literal set, with or without `force_flat`), the transition function
is total and closed: every `(state, byte)` pair with the state in
`[0, numStates)` has a defined transition to an in-range state
reachable from the root — so the search loop never needs to chase a
failure link at match time. -/
theorem C3_dfa_total_closed (pats : List (List Byte × Nat))
    (ac' : ACAutomaton)
    (h : ac_build (addAll pats) = some ac' ∨
      ac_build (ac_set_force_flat (addAll pats)) = some ac') :
    ∀ s, s < ac'.numStates → ∀ c : Byte,
      ∃ t, ac'.gotoT s c = some t ∧ t < ac'.numStates ∧ ACReach ac' t := by
  rcases h with h | h
  · exact ac_build_total_closed _ _ (addAll_wf pats).1 (addAll_flags pats).1 h
  · exact ac_build_total_closed _ _
      (wfTrie_force_flat _ (addAll_wf pats).1) ((addAll_flags pats).1) h

/-- **C9.** Every match emitted by scanning a built automaton — through
the match callback (`ac_search`), `ac_search_all`, or `ac_search_first`
— over a line of length `len` satisfies `1 ≤ length ≤ position + 1` and
`position < len`, so the derived start `position − length + 1` lies in
`[0, len)`. -/
theorem C9_match_bounds (pats : List (List Byte × Nat)) (ac' : ACAutomaton)
    (h : ac_build (addAll pats) = some ac' ∨
      ac_build (ac_set_force_flat (addAll pats)) = some ac')
    (text : List Byte) (maxm : Nat) :
    (∀ m ∈ ac_search_all ac' text maxm,
      1 ≤ m.length ∧ m.length ≤ m.position + 1 ∧ m.position < text.length) ∧
    (∀ m, ac_search_first ac' text = some m →
      1 ≤ m.length ∧ m.length ≤ m.position + 1 ∧
        m.position < text.length) := by
  have F : SearchFacts ac' := by
    rcases h with h | h
    · exact ac_build_search_facts _ _ (addAll_wf pats).1
        (addAll_flags pats).1 h
    · exact ac_build_search_facts _ _
        (wfTrie_force_flat _ (addAll_wf pats).1) ((addAll_flags pats).1) h
  constructor
  · unfold ac_search_all
    exact ac_search_bound ac' F text _ []
      (fun s : List ACMatch => ∀ m ∈ s,
        1 ≤ m.length ∧ m.length ≤ m.position + 1 ∧
        m.position < text.length)
      (fun m hm => absurd hm (List.not_mem_nil m))
      (by
        intro m s hPs h1 h2 h3
        split
        · exact hPs
        · intro m2 hm2
          rcases List.mem_append.mp hm2 with hm2 | hm2
          · exact hPs m2 hm2
          · have hm2e : m2 = m := by simpa using hm2
            subst hm2e
            exact ⟨h1, h2, h3⟩)
  · intro m hm
    unfold ac_search_first at hm
    split at hm
    · exact Option.noConfusion hm
    · cases hnext : acNext ac' with
      | none =>
        rw [hnext] at hm
        exact Option.noConfusion hm
      | some next =>
        rw [hnext] at hm
        dsimp only at hm
        exact firstLoop_bound ac' F next (acNext_good ac' F next hnext)
          text.length text 0 0 F.one_le (by rw [F.depth_root]) (by omega)
          m hm

/-! ## Concrete built automata for the witnesses -/

theorem opt_eq_some_getD {α : Type} (o : Option α) (d : α)
    (h : o.isSome = true) : o = some (o.getD d) := by
  cases o with
  | none => exact Bool.noConfusion h
  | some a => rfl

/-- One-pattern literal set: the single byte `"a"`. -/
def pats1 : List (List Byte × Nat) := [([(97 : Byte)], 0)]

theorem pats1_build_isSome : (ac_build (addAll pats1)).isSome = true := by
  obtain ⟨W, hle⟩ := addAll_wf pats1
  obtain ⟨ac', h, _⟩ := ac_build_facts _ W (addAll_flags pats1).1
    (by
      have hs : (pats1.map (fun p => p.1.length)).sum = 1 := rfl
      omega)
  rw [h]
  rfl

theorem pats1F_build_isSome :
    (ac_build (ac_set_force_flat (addAll pats1))).isSome = true := by
  obtain ⟨W, hle⟩ := addAll_wf pats1
  obtain ⟨ac', h, _⟩ := ac_build_facts _ (wfTrie_force_flat _ W)
    ((addAll_flags pats1).1)
    (show (addAll pats1).numStates ≤ 32767 by
      have hs : (pats1.map (fun p => p.1.length)).sum = 1 := rfl
      omega)
  rw [h]
  rfl

/-- The one-pattern automaton, built compressed. -/
def acB1 : ACAutomaton := (ac_build (addAll pats1)).getD ac_create

/-- The one-pattern automaton, built flat. -/
def acB1F : ACAutomaton :=
  (ac_build (ac_set_force_flat (addAll pats1))).getD ac_create

theorem acB1_eq : ac_build (addAll pats1) = some acB1 :=
  opt_eq_some_getD _ _ pats1_build_isSome

theorem acB1F_eq : ac_build (ac_set_force_flat (addAll pats1)) = some acB1F :=
  opt_eq_some_getD _ _ pats1F_build_isSome

/-- Witness for C3 at the concrete one-pattern automaton. -/
theorem C3_dfa_total_closed_witness :
    ∃ t, acB1.gotoT 0 (0 : Byte) = some t ∧ t < acB1.numStates ∧
      ACReach acB1 t := by
  have F := ac_build_search_facts _ _ (addAll_wf pats1).1
    (addAll_flags pats1).1 acB1_eq
  exact C3_dfa_total_closed pats1 acB1 (Or.inl acB1_eq) 0 F.one_le (0 : Byte)

/-- Witness for C9 at the concrete one-pattern automaton. -/
theorem C9_match_bounds_witness :
    (∀ m ∈ ac_search_all acB1 [(97 : Byte)] 64,
      1 ≤ m.length ∧ m.length ≤ m.position + 1 ∧
        m.position < [(97 : Byte)].length) ∧
    (∀ m, ac_search_first acB1 [(97 : Byte)] = some m →
      1 ≤ m.length ∧ m.length ≤ m.position + 1 ∧
        m.position < [(97 : Byte)].length) :=
  C9_match_bounds pats1 acB1 (Or.inl acB1_eq) [(97 : Byte)] 64

/-- Witness for C2 at the concrete one-pattern automaton. -/
theorem C2_compressed_flat_equiv_witness :
    ac_search_all acB1F [(98 : Byte), (97 : Byte)] 64 =
      ac_search_all acB1 [(98 : Byte), (97 : Byte)] 64 :=
  (C2_compressed_flat_equiv pats1 acB1F acB1 acB1F_eq acB1_eq
    [(98 : Byte), (97 : Byte)]).2 64

/-! ## The sentinel automaton of `patterns_build` (C5) -/

theorem foldl_pairs_wf (l : List (Nat × List Byte)) :
    ∀ ac : ACAutomaton, WFTrie ac →
      WFTrie (l.foldl (fun a ip => (ac_add_pattern a ip.2 ip.1).2) ac) ∧
      (l.foldl (fun a ip => (ac_add_pattern a ip.2 ip.1).2) ac).numStates ≤
        ac.numStates + (l.map (fun ip => ip.2.length)).sum := by
  induction l with
  | nil =>
    intro ac hwf
    exact ⟨hwf, by simp⟩
  | cons p rest ih =>
    intro ac hwf
    have hp := ac_add_pattern_wf ac p.2 p.1 hwf
    have hr := ih (ac_add_pattern ac p.2 p.1).2 hp.1
    refine ⟨hr.1, ?_⟩
    simp only [List.foldl_cons, List.map_cons, List.sum_cons] at hr ⊢
    omega

theorem foldl_pairs_flags (l : List (Nat × List Byte)) :
    ∀ ac : ACAutomaton,
      (l.foldl (fun a ip => (ac_add_pattern a ip.2 ip.1).2) ac).built =
        ac.built ∧
      (l.foldl (fun a ip => (ac_add_pattern a ip.2 ip.1).2) ac).forceFlat =
        ac.forceFlat := by
  induction l with
  | nil =>
    intro ac
    exact ⟨rfl, rfl⟩
  | cons p rest ih =>
    intro ac
    have h1 := ac_add_pattern_flags ac p.2 p.1
    have h2 := ih (ac_add_pattern ac p.2 p.1).2
    simp only [List.foldl_cons]
    exact ⟨h2.1.trans h1.1, h2.2.trans h1.2⟩

theorem addSentinels_wf : WFTrie (addSentinels ac_create) := by
  unfold addSentinels
  exact (foldl_pairs_wf sentinelTokens.enum ac_create wfTrie_create).1

theorem addSentinels_ns_le : (addSentinels ac_create).numStates ≤ 32767 := by
  have h := (foldl_pairs_wf sentinelTokens.enum ac_create wfTrie_create).2
  have hsum : ((sentinelTokens.enum).map (fun ip => ip.2.length)).sum ≤
      32000 := by decide
  have hns : ac_create.numStates = 1 := rfl
  unfold addSentinels
  omega

theorem addSentinels_built : (addSentinels ac_create).built = false := by
  unfold addSentinels
  exact (foldl_pairs_flags sentinelTokens.enum ac_create).1

theorem addSentinels_forceFlat :
    (addSentinels ac_create).forceFlat = false := by
  unfold addSentinels
  exact (foldl_pairs_flags sentinelTokens.enum ac_create).2

theorem addSentinels_build_isSome :
    (ac_build (addSentinels ac_create)).isSome = true := by
  obtain ⟨ac', h, _⟩ := ac_build_facts (addSentinels ac_create)
    addSentinels_wf addSentinels_built addSentinels_ns_le
  rw [h]
  rfl

/-- The built sentinel automaton. -/
def sentAC : ACAutomaton := (ac_build (addSentinels ac_create)).getD ac_create

theorem sentAC_eq : ac_build (addSentinels ac_create) = some sentAC :=
  opt_eq_some_getD _ _ addSentinels_build_isSome

theorem ac_create_build_isSome : (ac_build ac_create).isSome = true := by
  obtain ⟨ac', h, _⟩ := ac_build_facts ac_create wfTrie_create rfl (by decide)
  rw [h]
  rfl

/-- The empty automaton after building. -/
def acE0 : ACAutomaton := (ac_build ac_create).getD ac_create

theorem acE0_eq : ac_build ac_create = some acE0 :=
  opt_eq_some_getD _ _ ac_create_build_isSome

/-- Concrete evaluation of `patterns_build` on a fresh empty set. -/
theorem patterns_build_create4 :
    patterns_build (patterns_create 4) = some
      { patterns_create 4 with
        automaton := acE0
        hot_ac := none
        hot_count := 0
        sentinel := some sentAC
        built := true } := by
  unfold patterns_build
  rw [show (patterns_create 4).built = false from rfl]
  simp only [Bool.false_eq_true, if_false]
  rw [show addLiterals (patterns_create 4) = ac_create from rfl, acE0_eq]
  dsimp only
  rw [show hotFold (patterns_create 4) hotNames
      (ac_set_force_flat ac_create, 0) = (ac_set_force_flat ac_create, 0)
      from rfl]
  rw [sentAC_eq]
  rfl

/-- **C5 (amended).** After a successful build of an unbuilt pattern
set, the sentinel automaton (built from the fixed token list without
`ac_set_force_flat`) is materialised in the *compressed* representation:
no flat table, a flat root row plus per-state compressed rows. -/
theorem C5_sentinel_compressed (ps ps' : PatternSet) (hb : ps.built = false)
    (h : patterns_build ps = some ps') :
    ∃ s, ps'.sentinel = some s ∧ s.built = true ∧ s.dfa = none ∧
      s.rootRow = some (flatRow s.gotoT 0) ∧
      s.compressed = some (fun st => buildCompRow (flatRow s.gotoT st)) := by
  unfold patterns_build at h
  rw [hb] at h
  simp only [Bool.false_eq_true, if_false] at h
  cases haut : ac_build (addLiterals ps) with
  | none =>
    rw [haut] at h
    exact Option.noConfusion h
  | some autoB =>
    rw [haut] at h
    dsimp only at h
    obtain ⟨s, hs, f1, f2, f3, f4, f5, f6, f7, f8, f9, f10, f11⟩ :=
      ac_build_facts (addSentinels ac_create) addSentinels_wf
        addSentinels_built addSentinels_ns_le
    obtain ⟨hd, hroot, hcomp⟩ := f11 addSentinels_forceFlat
    cases h
    dsimp only
    exact ⟨s, hs, f5, hd, hroot, hcomp⟩

/-- Witness for the amended C5 at a fresh empty pattern set. -/
theorem C5_sentinel_compressed_witness :
    ∃ s, ({ patterns_create 4 with
        automaton := acE0
        hot_ac := none
        hot_count := 0
        sentinel := some sentAC
        built := true } : PatternSet).sentinel = some s ∧ s.built = true ∧
      s.dfa = none ∧ s.rootRow = some (flatRow s.gotoT 0) ∧
      s.compressed = some (fun st => buildCompRow (flatRow s.gotoT st)) :=
  C5_sentinel_compressed (patterns_create 4) _ rfl patterns_build_create4

/-- Counterexample to the claimed flat sentinel: on a fresh empty set
the build yields a sentinel automaton with *no* flat table and a
compressed table present. -/
theorem C5_sentinel_not_flat_counterexample :
    ∃ ps' s, patterns_build (patterns_create 4) = some ps' ∧
      ps'.sentinel = some s ∧ s.dfa = none ∧ s.compressed ≠ none := by
  obtain ⟨s, hs, f1, f2, f3, f4, f5, f6, f7, f8, f9, f10, f11⟩ :=
    ac_build_facts (addSentinels ac_create) addSentinels_wf
      addSentinels_built addSentinels_ns_le
  obtain ⟨hd, hroot, hcomp⟩ := f11 addSentinels_forceFlat
  have hss : sentAC = s := Option.some.inj (sentAC_eq.symm.trans hs)
  refine ⟨_, sentAC, patterns_build_create4, rfl, ?_, ?_⟩
  · rw [hss]
    exact hd
  · rw [hss, hcomp]
    exact fun hcon => Option.noConfusion hcon

/-! ## Over-long lines (C4) -/

/-- A redactor with the SSE4.2 pre-filter enabled on trigger byte `Z`
and no sentinel automaton. -/
def r4 : Redactor :=
  { patterns :=
      { patterns := fun _ => emptyPattern, count := 0, capacity := 0
        automaton := ac_create, sentinel := none, hot_ac := none
        hot_count := 0, built := true }
    output_capacity := 65536, matchData := fun _ => false, num_patterns := 0
    triggers := [charByte 'Z'], trigger_count := 1, use_sse42 := true
    lines_scanned := 0, lines_modified := 0, patterns_matched := 0
    lines_prefiltered := 0, lines_sentinel_filtered := 0 }

/-- A line one byte longer than `PLUMBR_MAX_LINE_SIZE`. -/
def longLine : List Byte := List.replicate 65537 (charByte 'x')

theorem longLine_len : longLine.length = 65537 := by
  unfold longLine
  rw [List.length_replicate]

theorem sse42_longLine :
    sse42_has_triggers [charByte 'Z'] 1 longLine = false := by
  unfold sse42_has_triggers
  rw [if_neg]
  · rw [List.any_eq_false]
    intro b hb
    have hbx : b = charByte 'x' := List.eq_of_mem_replicate hb
    subst hbx
    decide
  · rintro (h | h)
    · exact absurd h (by decide)
    · rw [longLine_len] at h
      exact absurd h (by decide)

/-- With the pre-filter active and rejecting and no sentinel automaton,
`redactor_process` returns the input and bumps `lines_scanned` — for a
line of any length. -/
theorem redactor_prefilter_reject (exec : RegexExec) (r : Redactor)
    (line : List Byte)
    (hsse : r.use_sse42 = true) (htc : 0 < r.trigger_count)
    (hpre : sse42_has_triggers r.triggers r.trigger_count line = false)
    (hsent : r.patterns.sentinel = none) :
    (redactor_process exec r line).2 = ProcResult.input ∧
    (redactor_process exec r line).1.lines_scanned = r.lines_scanned + 1 := by
  unfold redactor_process
  simp only []
  split
  · exact ⟨rfl, rfl⟩
  · rw [if_pos ⟨by simpa using hsse, by simpa using htc, by simpa using hpre⟩,
      hsent]
    exact ⟨rfl, rfl⟩

/-- Counterexample to C4: `redactor_process` does not reject a line of
`PLUMBR_MAX_LINE_SIZE + 1` bytes — it scans it, returns the input
(a non-error result), and bumps `lines_scanned`. -/
theorem C4_overlong_processed_counterexample :
    PLUMBR_MAX_LINE_SIZE < longLine.length ∧
    (redactor_process (fun _ _ _ => none) r4 longLine).2 =
      ProcResult.input ∧
    (redactor_process (fun _ _ _ => none) r4 longLine).1.lines_scanned =
      r4.lines_scanned + 1 := by
  have h := redactor_prefilter_reject (fun _ _ _ => none) r4 longLine rfl
    (by decide) sse42_longLine rfl
  exact ⟨by rw [longLine_len]; decide, h.1, h.2⟩

/-- **C4 (amended).** The over-long-line guard is enforced one level
up, in `libplumbr_redact`: an input longer than `PLUMBR_MAX_LINE_SIZE`
is rejected with a null result before the redactor runs, leaving the
library object — including every redactor stats counter — unchanged.
(`redactor_process` itself does not reject over-long lines.) -/
theorem C4_overlong_guard (exec : RegexExec) (p : LibPlumbr)
    (input : List Byte) (h : PLUMBR_MAX_LINE_SIZE < input.length) :
    libplumbr_redact exec p input = (p, none) := by
  unfold libplumbr_redact
  rw [if_pos h]

/-- The concrete library object for the C4 witness. -/
def lp4 : LibPlumbr :=
  { redactor := r4, lines_processed := 0, bytes_processed := 0,
    lines_modified := 0 }

/-- Witness for the amended C4 at the concrete over-long line. -/
theorem C4_overlong_guard_witness :
    libplumbr_redact (fun _ _ _ => none) lp4 longLine = (lp4, none) :=
  C4_overlong_guard (fun _ _ _ => none) lp4 longLine
    (by rw [longLine_len]; decide)

end Plumbr
